/-
  Verification of the ACL index codec, the LMDB authorization wrapper and the
  statistics sidecar of the v-common repository.

  The Rust sources embedded here:
    * src/az_impl/formats.rs            (codec: encode/decode/update_counters)
    * src/az_impl/az_lmdb.rs            (LmdbAzContext, AzLmdbStorage::get)
    * v-authorization-impl/src/az_lmdb.rs
    * v-authorization-impl/src/stat_manager.rs (StatPub)

  Machine integers are modelled as `Nat` with explicit `% 2^w` where overflow
  can occur (u8 access bytes, u16 counters, u32 shift accumulators); shifts use
  the release-mode semantics of Rust (`a << b` computes `a <<< (b % 32)` on
  `u32`).  `HashMap<char,u16>` is modelled as an association list
  `List (Char × Nat)` whose `insert` replaces in place and whose iteration
  order is the list order (Rust's iteration order is unspecified; the claims
  are all stated modulo ordering).  Strings are processed through their
  underlying character lists.
-/
import Mathlib

namespace VCommon

/-- Modelled from the spec (§3 Marker): marker byte for `IS_EXCLUSIVE`.
The byte values of the two markers live in the external `v-authorization`
dependency (not part of this repository's sources); they are the characters
used in the stored text format. -/
def M_IS_EXCLUSIVE : Char := 'X'

/-- Modelled from the spec (§3 Marker): marker byte for `IGNORE_EXCLUSIVE`. -/
def M_IGNORE_EXCLUSIVE : Char := 'N'

/-- Modelled from the spec (§3 Access bits): the eight access bits in the order
of the `ACCESS_8_FULL_LIST` constant of the `v-authorization` dependency. -/
def ACCESS_8_FULL_LIST : List Nat := [1, 2, 4, 8, 16, 32, 64, 128]

/-- Modelled from the spec (§3 Counter map): the eight access tag characters in
the order of the `ACCESS_C_FULL_LIST` constant of the `v-authorization`
dependency. -/
def ACCESS_C_FULL_LIST : List Char := ['M', 'R', 'U', 'P', 'm', 'r', 'u', 'p']

/-- `formats.rs::access_from_char`, with the resulting `Access` enum variant
represented by its `u8` value. -/
def access_from_char (c : Char) : Option Nat :=
  match c with
  | 'M' => some 1
  | 'R' => some 2
  | 'U' => some 4
  | 'P' => some 8
  | 'm' => some 16
  | 'r' => some 32
  | 'u' => some 64
  | 'p' => some 128
  | _ => none

/-- `formats.rs::access8_from_char`. -/
def access8_from_char (c : Char) : Option Nat :=
  match c with
  | 'M' => some 1
  | 'R' => some 2
  | 'U' => some 4
  | 'P' => some 8
  | 'm' => some 16
  | 'r' => some 32
  | 'u' => some 64
  | 'p' => some 128
  | _ => none

/-- `formats.rs::access8_to_char`. -/
def access8_to_char (a : Nat) : Option Char :=
  match a with
  | 1 => some 'M'
  | 2 => some 'R'
  | 4 => some 'U'
  | 8 => some 'P'
  | 16 => some 'm'
  | 32 => some 'r'
  | 64 => some 'u'
  | 128 => some 'p'
  | _ => none

/-- Association-list lookup, modelling `HashMap::get` on `HashMap<char,u16>`. -/
def lookupA : List (Char × Nat) → Char → Option Nat
  | [], _ => none
  | (k, v) :: t, c => if k = c then some v else lookupA t c

/-- Association-list insert, modelling `HashMap::insert`: replaces the binding
in place when the key is present, appends otherwise. -/
def insertA : List (Char × Nat) → Char → Nat → List (Char × Nat)
  | [], c, v => [(c, v)]
  | (k, w) :: t, c, v => if k = c then (c, v) :: t else (k, w) :: insertA t c v

/-- Modelled from the spec: a validity date as parsed from the `"T" YYMMDD ","`
prefix (`chrono::NaiveDate` restricted to the day-granularity fields the codec
uses). -/
structure NDate where
  yy : Nat
  mm : Nat
  dd : Nat
deriving DecidableEq, Repr

/-- Modelled from the spec (§3 ACLRecord): the record tuple
`(id, access_bits, marker, counters, is_deleted)` of the `v-authorization`
dependency.  `access` is a `u8` value, `counters` a `HashMap<char,u16>`
modelled as an association list. -/
structure ACLRecord where
  id : String
  access : Nat
  marker : Char
  is_deleted : Bool
  counters : List (Char × Nat)
deriving DecidableEq, Repr

/-- `ACLRecord::new` of the `v-authorization` dependency: fresh record with
zero access, no marker (`0 as char`), not deleted, empty counters. -/
def ACLRecord.new (id : String) : ACLRecord :=
  { id := id, access := 0, marker := Char.ofNat 0, is_deleted := false, counters := [] }

/-- `ACLRecord::new_with_access` of the `v-authorization` dependency. -/
def ACLRecord.new_with_access (id : String) (access : Nat) : ACLRecord :=
  { id := id, access := access, marker := Char.ofNat 0, is_deleted := false, counters := [] }

/-- Decimal digit character (`'0'` through `'9'`). -/
def digitChar (d : Nat) : Char := Char.ofNat (48 + d)

/-- Structural helper for `toDecimal` (the first argument is fuel, always
sufficient when at least the number itself). -/
def toDecimalAux : Nat → Nat → List Char
  | 0, _ => []
  | fuel + 1, n =>
    if n < 10 then [digitChar n] else toDecimalAux fuel (n / 10) ++ [digitChar (n % 10)]

/-- Decimal digit list of a number, mirroring Rust `to_string` on integers. -/
def toDecimal (n : Nat) : List Char := toDecimalAux (n + 1) n

/-- Uppercase hex digit character, as produced by Rust `format!("\x7b:X\x7d")`. -/
def hexDigitChar (d : Nat) : Char := if d < 10 then Char.ofNat (48 + d) else Char.ofNat (55 + d)

/-- Structural helper for `toHexUpper`. -/
def toHexUpperAux : Nat → Nat → List Char
  | 0, _ => []
  | fuel + 1, n =>
    if n < 16 then [hexDigitChar n] else toHexUpperAux fuel (n / 16) ++ [hexDigitChar (n % 16)]

/-- Uppercase hex digit list of a number, mirroring Rust `format!("\x7b:X\x7d")`
(no leading zeros, `"0"` for zero). -/
def toHexUpper (n : Nat) : List Char := toHexUpperAux (n + 1) n

/-- Rust `char::to_digit(16)`. -/
def hexDigit? (c : Char) : Option Nat :=
  if '0' ≤ c ∧ c ≤ '9' then some (c.toNat - 48)
  else if 'a' ≤ c ∧ c ≤ 'f' then some (c.toNat - 87)
  else if 'A' ≤ c ∧ c ≤ 'F' then some (c.toNat - 55)
  else none

/-- Numeric value of a list of decimal digit characters. -/
def digitsVal (l : List Char) : Nat := l.foldl (fun a c => a * 10 + (c.toNat - 48)) 0

/-- Rust `str::parse::<u16>`: an optional leading `'+'`, then at least one
decimal digit, value at most `u16::MAX`; anything else is a parse error. -/
def parseU16 (s : List Char) : Option Nat :=
  let t := match s with
           | c :: r => if c = '+' then r else c :: r
           | [] => []
  if t ≠ [] ∧ t.all Char.isDigit then
    if digitsVal t ≤ 65535 then some (digitsVal t) else none
  else none

/-- Modelled from the spec: chrono's year mapping for the two-digit `%y`
specifier (`00`–`68` map to `2000`–`2068`, `69`–`99` to `1969`–`1999`). -/
def yearOfYY (yy : Nat) : Nat := if yy ≤ 68 then 2000 + yy else 1900 + yy

/-- Gregorian leap year. -/
def isLeapYear (y : Nat) : Bool := y % 4 == 0 && (y % 100 != 0 || y % 400 == 0)

/-- Days in a month of the Gregorian calendar. -/
def daysInMonth (y m : Nat) : Nat :=
  if m = 2 then (if isLeapYear y then 29 else 28)
  else if m = 4 ∨ m = 6 ∨ m = 9 ∨ m = 11 then 30
  else 31

/-- Modelled from the spec: `NaiveDate::parse_from_str(s, "%y%m%d")` of the
external chrono dependency, for the canonical zero-padded six-digit form that
the `"T%y%m%d"` formatter emits: exactly six decimal digits with a valid
Gregorian month and day. -/
def parse_ymd (s : List Char) : Option NDate :=
  match s with
  | [a, b, c, d, e, f] =>
    if a.isDigit && b.isDigit && c.isDigit && d.isDigit && e.isDigit && f.isDigit then
      let yy := (a.toNat - 48) * 10 + (b.toNat - 48)
      let mm := (c.toNat - 48) * 10 + (d.toNat - 48)
      let dd := (e.toNat - 48) * 10 + (f.toNat - 48)
      if 1 ≤ mm ∧ mm ≤ 12 ∧ 1 ≤ dd ∧ dd ≤ daysInMonth (yearOfYY yy) mm then
        some ⟨yy, mm, dd⟩
      else none
    else none
  | _ => none

/-- Rust `str::split_once(',')` on a character list. -/
def splitOnceComma : List Char → Option (List Char × List Char)
  | [] => none
  | c :: t =>
    if c = ',' then some ([], t)
    else match splitOnceComma t with
         | some p => some (c :: p.1, p.2)
         | none => none

/-- `formats.rs::extract_date` on the character list of the source string:
strip a leading `'T'`, split at the first `','`, parse the date; on any
failure return no date together with the full original string. -/
def extract_date (s : List Char) : Option NDate × List Char :=
  match s with
  | c :: rest =>
    if c = 'T' then
      match splitOnceComma rest with
      | some (ds, tail) =>
        (match parse_ymd ds with
         | some d => (some d, tail)
         | none => (none, c :: rest))
      | none => (none, c :: rest)
    else (none, c :: rest)
  | [] => (none, [])

/-- The `d.format("T%y%m%d")` prefix used by `encode_record`: `%y` prints the
year modulo 100, `%m`/`%d` print zero-padded two-digit month and day. -/
def pad2 (n : Nat) : List Char := if n < 10 then ['0', digitChar n] else toDecimal n

/-- Date prefix emitted by `encode_record`. -/
def formatDateT (d : NDate) : List Char := 'T' :: (pad2 (d.yy % 100) ++ pad2 d.mm ++ pad2 d.dd)

/-- `formats.rs::encode_value_v1`: the access byte in hex followed by the
marker when one is set. -/
def encode_value_v1 (right : ACLRecord) : List Char :=
  toHexUpper right.access ++
    (if right.marker = M_IS_EXCLUSIVE ∨ right.marker = M_IGNORE_EXCLUSIVE then [right.marker] else [])

/-- `formats.rs::encode_value_v2`: first every counter entry with a valid tag
and positive count (the count printed when above 1), then the access bits not
covered by those counters, then the marker when one is set. -/
def encode_value_v2 (right : ACLRecord) : List Char :=
  let sa := right.counters.foldl (fun (acc : Nat × List Char) tc =>
    match access_from_char tc.1 with
    | some c =>
      if tc.2 > 0 then
        (acc.1 ||| c, acc.2 ++ tc.1 :: (if tc.2 > 1 then toDecimal tc.2 else []))
      else acc
    | none => acc) (0, [])
  let out := ACCESS_8_FULL_LIST.foldl (fun out a =>
    if a &&& right.access &&& sa.1 = 0 then
      match access8_to_char (a &&& right.access) with
      | some c => out ++ [c]
      | none => out
    else out) sa.2
  if right.marker = M_IS_EXCLUSIVE ∨ right.marker = M_IGNORE_EXCLUSIVE then out ++ [right.marker]
  else out

/-- `formats.rs::encode_record`.  The `ACLRecordSet` argument is given as the
association list of `(key, record)` pairs in iteration order. -/
def encode_record (date : Option NDate) (new_rights : List (String × ACLRecord))
    (version_of_index_format : Nat) : String :=
  let pre : List Char := match date with | some d => formatDateT d ++ [','] | none => []
  let st := new_rights.foldl (fun (acc : List Char × Nat) kr =>
    if !kr.2.is_deleted then
      (acc.1 ++ kr.2.id.data ++ [';'] ++
         (if version_of_index_format = 1 then encode_value_v1 kr.2 else encode_value_v2 kr.2) ++
         [';'],
       acc.2 + 1)
    else acc) (pre, 0)
  (if st.2 = 0 then st.1 ++ ['X'] else st.1).asString

/-- Loop state of `formats.rs::decode_value_v2`. -/
structure V2State where
  access : Nat
  marker : Char
  tag : Option Char
  val : List Char
  counters : List (Char × Nat)

/-- The character class tested by the `decode_value_v2` loop: the eight access
tags and the two marker characters. -/
def v2IsTag (c : Char) : Bool :=
  c == 'M' || c == 'R' || c == 'U' || c == 'P' ||
  c == 'm' || c == 'r' || c == 'u' || c == 'p' ||
  c == M_IS_EXCLUSIVE || c == M_IGNORE_EXCLUSIVE

/-- The `if with_count { if let Some(t) = tag { counters.insert(t, val.parse().unwrap_or(1)) } }`
fragment of `decode_value_v2`. -/
def v2FlushTag (with_count : Bool) (st : V2State) : List (Char × Nat) :=
  if with_count then
    match st.tag with
    | some t => insertA st.counters t ((parseU16 st.val).getD 1)
    | none => st.counters
  else st.counters

/-- One character of the `decode_value_v2` loop. -/
def v2Step (with_count : Bool) (st : V2State) (c : Char) : V2State :=
  if v2IsTag c then
    let st1 :=
      if c = M_IS_EXCLUSIVE ∨ c = M_IGNORE_EXCLUSIVE then { st with marker := c }
      else
        match access_from_char c with
        | some a => { st with access := st.access ||| a }
        | none => st
    { st1 with counters := v2FlushTag with_count st1, tag := some c, val := [] }
  else { st with val := st.val ++ [c] }

/-- `formats.rs::decode_value_v2` acting on the record `rr`. -/
def decode_value_v2 (value : List Char) (rr : ACLRecord) (with_count : Bool) : ACLRecord :=
  let st := value.foldl (v2Step with_count)
    { access := 0, marker := rr.marker, tag := none, val := [], counters := rr.counters }
  { rr with access := st.access, marker := st.marker, counters := v2FlushTag with_count st }

/-- Loop state of `formats.rs::decode_value_v1`: the `u32` access accumulator,
the marker and the shift. -/
structure V1State where
  access : Nat
  marker : Char
  shift : Nat

/-- One character of the `decode_value_v1` loop: markers are stored, hex
digits are accumulated least-significant first (`access |= v << shift` on a
`u32`, release-mode shift masking), anything else is skipped without
advancing the shift. -/
def v1Step (st : V1State) (c : Char) : V1State :=
  if c = M_IS_EXCLUSIVE ∨ c = M_IGNORE_EXCLUSIVE then { st with marker := c }
  else
    match hexDigit? c with
    | some v =>
      { st with access := st.access ||| ((v <<< (st.shift % 32)) % 4294967296),
                shift := st.shift + 4 }
    | none => st

/-- `formats.rs::decode_value_v1` acting on the record `rr`; the final access
is the accumulator truncated to a `u8`, and with counters requested every set
access bit receives the counter 1. -/
def decode_value_v1 (value : List Char) (rr : ACLRecord) (with_count : Bool) : ACLRecord :=
  let st := value.foldl v1Step { access := 0, marker := Char.ofNat 0, shift := 0 }
  let rr1 := { rr with access := st.access % 256, marker := st.marker }
  if with_count then
    { rr1 with counters := ACCESS_8_FULL_LIST.foldl (fun cs a =>
        if a &&& rr1.access > 0 then
          match access8_to_char a with
          | some ac => insertA cs ac 1
          | none => cs
        else cs) rr1.counters }
  else rr1

/-- Rust `str::split(';')` on a character list: `n` separators yield `n + 1`
pieces, empty pieces included. -/
def splitSemi : List Char → List (List Char)
  | [] => [[]]
  | c :: t =>
    if c = ';' then [] :: splitSemi t
    else match splitSemi t with
         | [] => [[c]]
         | h :: r => (c :: h) :: r

/-- The pairwise token loop of `formats.rs::decode_index_record`, returning the
drained `(key, record)` pairs in encounter order; a pair with an empty value
token produces no record, a trailing half pair is ignored, and the value's
first character selects the v1 or v2 decoder. -/
def indexPairs (with_counter : Bool) : List (List Char) → List (String × ACLRecord)
  | key :: value :: rest =>
    (match value with
     | [] => []
     | v0 :: _ =>
       let rr := ACLRecord.new key.asString
       let rr :=
         if (access_from_char v0).isNone then decode_value_v1 value rr with_counter
         else decode_value_v2 value rr with_counter
       [(key.asString, rr)]) ++ indexPairs with_counter rest
  | _ => []

/-- `formats.rs::decode_index_record` with the `drain` closure made explicit
as the returned pair list. -/
def decode_index_record (src : List Char) (with_counter : Bool) :
    Bool × Option NDate × List (String × ACLRecord) :=
  let dr := extract_date src
  if dr.2 = [] then (false, dr.1, [])
  else (true, dr.1, indexPairs with_counter (splitSemi dr.2))

/-- `formats.rs::decode_rec_to_rights`: drains the records in encounter order. -/
def decode_rec_to_rights (src : String) : Bool × Option NDate × List ACLRecord :=
  let r := decode_index_record src.data false
  (r.1, r.2.1, r.2.2.map Prod.snd)

/-- Association-list insert for string keys, modelling `ACLRecordSet::insert`
(`HashMap<String, ACLRecord>`): the later binding wins. -/
def insertS : List (String × ACLRecord) → String → ACLRecord → List (String × ACLRecord)
  | [], k, v => [(k, v)]
  | (k', w) :: t, k, v => if k' = k then (k, v) :: t else (k', w) :: insertS t k v

/-- `formats.rs::decode_rec_to_rightset`: drains the records into the record
set passed in. -/
def decode_rec_to_rightset (src : String) (new_rights : List (String × ACLRecord)) :
    Bool × Option NDate × List (String × ACLRecord) :=
  let r := decode_index_record src.data true
  (r.1, r.2.1, r.2.2.foldl (fun m kv => insertS m kv.1 kv.2) new_rights)

/-- UTF-8 byte length of a character list, matching Rust `String::len`. -/
def utf8Len (l : List Char) : Nat := (l.map Char.utf8Size).sum

/-- `formats.rs::decode_filter`: strip a date prefix, answer a fresh empty-id
record for remainders shorter than three bytes, otherwise decode the remainder
and answer either its first record (id and access only) or, when no record
decodes, a zero-access record carrying the remainder as id. -/
def decode_filter (filter_value : String) : Option ACLRecord × Option NDate :=
  let dr := extract_date filter_value.data
  let fv := dr.2
  if utf8Len fv < 3 then (some (ACLRecord.new_with_access "" 0), dr.1)
  else
    let fs := (decode_rec_to_rights fv.asString).2.2
    match fs with
    | [] => (some (ACLRecord.new_with_access fv.asString 0), dr.1)
    | el :: _ => (some (ACLRecord.new_with_access el.id el.access), dr.1)

/-- One iteration of the `formats.rs::update_counters` loop, for one access
tag character; the state is `(counters, out_access)`.  `u16` counter
arithmetic uses release-mode wrapping. -/
def ucStep (prev_access : Nat) (is_deleted is_drop_count : Bool)
    (st : List (Char × Nat) × Nat) (access_c : Char) : List (Char × Nat) × Nat :=
  match access8_from_char access_c with
  | some check_bit =>
    match lookupA st.1 access_c with
    | some cc =>
      if st.2 &&& check_bit > 0 then
        if is_drop_count then
          if is_deleted then (insertA st.1 access_c 0, st.2 &&& (255 ^^^ check_bit))
          else (insertA st.1 access_c 1, st.2 ||| check_bit)
        else
          if is_deleted then
            if prev_access &&& check_bit > 0 then
              let cc1 := (cc + 65535) % 65536
              if cc1 = 0 then (insertA st.1 access_c cc1, st.2 &&& (255 ^^^ check_bit))
              else (insertA st.1 access_c cc1, st.2)
            else st
          else (insertA st.1 access_c ((cc + 1) % 65536), st.2 ||| check_bit)
      else
        if is_drop_count then
          if cc > 0 then (st.1, st.2 ||| check_bit) else st
        else st
    | none =>
      if ¬is_deleted ∧ st.2 &&& check_bit > 0 then (insertA st.1 access_c 1, st.2 ||| check_bit)
      else st
  | none => st

/-- `formats.rs::update_counters`, returning the updated counter map together
with the resulting `out_access` byte. -/
def update_counters (counters : List (Char × Nat)) (prev_access cur_access : Nat)
    (is_deleted is_drop_count : Bool) : List (Char × Nat) × Nat :=
  ACCESS_C_FULL_LIST.foldl (ucStep prev_access is_deleted is_drop_count) (counters, cur_access)

/-- `az_lmdb.rs::StatMode`. -/
inductive StatMode
  | full
  | minimal
  | off
deriving DecidableEq, Repr

/-- `stat_manager.rs::StatPub` (v-authorization-impl revision), reduced to the
fields the claims observe; the nng socket itself is modelled by the outcomes
of its `dial` and `send` calls at the call sites. -/
structure StatPub where
  sender_id : String
  is_connected : Bool
  message_buffer : List String
  duration : Nat
deriving DecidableEq, Repr

/-- `StatPub::collect`: append one message to the in-memory FIFO. -/
def StatPub.collect (p : StatPub) (m : String) : StatPub :=
  { p with message_buffer := p.message_buffer ++ [m] }

/-- `StatPub::set_duration`. -/
def StatPub.set_duration (p : StatPub) (d : Nat) : StatPub :=
  { p with duration := d }

/-- `stat_manager.rs::StatPub::flush` (v-authorization-impl revision): dial
when not connected (`self.connect()?` — a failure returns at once), build
`sender_id "," duration_micros "," buffer joined by ";"`, send it
(`self.socket.send(..)?` — a failure returns at once), then clear the buffer.
Returns the result, the new state, and the message that reached the socket,
if any. -/
def StatPub.flush (p : StatPub) (dialOk sendOk : Bool) :
    Except Unit Unit × StatPub × Option String :=
  if ¬p.is_connected ∧ ¬dialOk then (Except.error (), p, none)
  else
    let p1 := if p.is_connected then p else { p with is_connected := true }
    let msg := p.sender_id ++ "," ++ (toDecimal p.duration).asString ++ "," ++
               String.intercalate ";" p1.message_buffer
    if ¬sendOk then (Except.error (), p1, none)
    else (Except.ok (), { p1 with message_buffer := [] }, some msg)

/-- `az_lmdb.rs::Stat`: a sidecar endpoint together with its mode. -/
structure Stat where
  point : StatPub
  mode : StatMode
deriving DecidableEq, Repr

/-- `az_lmdb.rs::message` (also `stat_manager.rs::format_stat_message`): the
statistics entry for one key lookup. -/
def message (key : String) (use_cache from_cache : Bool) : String :=
  match use_cache, from_cache with
  | true, true => key ++ "/C"
  | true, false => key ++ "/cB"
  | false, _ => key ++ "/B"

/-- Outcome of one raw LMDB `get` as seen by `AzLmdbStorage::get`: a value, a
not-found miss, or a read error. -/
inductive DbGet
  | found (v : String)
  | missing
  | dbErr
deriving DecidableEq, Repr

/-- The `if let Some(stat) = self.stat { if stat.mode == Full { collect } }`
fragment of `AzLmdbStorage::get`. -/
def statCollect (stat : Option Stat) (m : String) : Option Stat :=
  match stat with
  | some s => if s.mode = StatMode.full then some { s with point := s.point.collect m } else some s
  | none => none

/-- `az_lmdb.rs::AzLmdbStorage::get`: consult the cache first when one is
bound (a hit returns the cached value, a miss or a cache read error falls
through), then the primary database (a miss is `Ok(None)`, an error is an
`io::Error`).  Each database is modelled as a function from key to outcome;
the second component is the updated statistics sidecar. -/
def storage_get (cache_db : Option (String → DbGet)) (db : String → DbGet)
    (stat : Option Stat) (key : String) :
    Except String (Option String) × Option Stat :=
  let fromPrimary : Except String (Option String) × Option Stat :=
    match db key with
    | DbGet.found v => (Except.ok (some v), statCollect stat (message key cache_db.isSome false))
    | DbGet.missing => (Except.ok none, stat)
    | DbGet.dbErr => (Except.error ("Authorize: db.get " ++ key), stat)
  match cache_db with
  | some cdb =>
    match cdb key with
    | DbGet.found v => (Except.ok (some v), statCollect stat (message key true true))
    | DbGet.missing => fromPrimary
    | DbGet.dbErr => fromPrimary
  | none => fromPrimary

/-- The per-context state of `LmdbAzContext` touched by the retry logic. -/
structure AzCtx where
  authorize_counter : Nat
  max_authorize_counter : Nat
deriving DecidableEq, Repr

/-- Outcome of one full decision attempt (`authorize_use_db`). -/
inductive AttemptResult
  | ok (b : Nat)
  | err (e : String)
deriving DecidableEq, Repr

/-- `src/az_impl/az_lmdb.rs::LmdbAzContext::authorize_and_trace`.  `attempts i`
is the outcome of the `(i+1)`-th `authorize_use_db` call (every such call
binds a fresh database handle and read transaction);
`reopenPrologueOk` and `reopenRetryOk` are the outcomes of the two possible
`EnvBuilder::open` calls (the counter-threshold reopen and the post-error
reopen).  Returns the result, the updated context, and the number of decision
attempts performed. -/
def authorize_and_trace (ctx : AzCtx) (attempts : Nat → AttemptResult)
    (reopenPrologueOk reopenRetryOk : Bool) :
    Except String Nat × AzCtx × Nat :=
  let ctr := ctx.authorize_counter + 1
  if ctr ≥ ctx.max_authorize_counter ∧ ¬reopenPrologueOk then
    (Except.error "Authorize: Err opening environment", { ctx with authorize_counter := 0 }, 0)
  else
    let ctx1 := if ctr ≥ ctx.max_authorize_counter then { ctx with authorize_counter := 0 }
                else { ctx with authorize_counter := ctr }
    match attempts 0 with
    | AttemptResult.ok r => (Except.ok r, ctx1, 1)
    | AttemptResult.err e =>
      if ¬reopenRetryOk then (Except.error e, ctx1, 1)
      else
        match attempts 1 with
        | AttemptResult.ok r => (Except.ok r, ctx1, 2)
        | AttemptResult.err e2 => (Except.error e2, ctx1, 2)

/-- `v-authorization-impl/src/az_lmdb.rs::LmdbAzContext::authorize_and_trace`:
the shared-environment revision — the counter is reset at the threshold
without reopening, and a failed first attempt is always retried exactly
once with the retry's error surfaced. -/
def authorize_and_trace_vai (ctx : AzCtx) (attempts : Nat → AttemptResult) :
    Except String Nat × AzCtx × Nat :=
  let ctr := ctx.authorize_counter + 1
  let ctx1 := if ctr ≥ ctx.max_authorize_counter then { ctx with authorize_counter := 0 }
              else { ctx with authorize_counter := ctr }
  match attempts 0 with
  | AttemptResult.ok r => (Except.ok r, ctx1, 1)
  | AttemptResult.err _ =>
    match attempts 1 with
    | AttemptResult.ok r => (Except.ok r, ctx1, 2)
    | AttemptResult.err e2 => (Except.error e2, ctx1, 2)

/-- The statistics epilogue of `az_lmdb.rs::LmdbAzContext::authorize`: in
`Full` or `Minimal` mode store the elapsed duration and flush (a flush error
is only logged); in `None` mode, or without a sidecar, do nothing. -/
def authorize_stat_epilogue (stat : Option Stat) (elapsed : Nat) (dialOk sendOk : Bool) :
    Option Stat × Option String :=
  match stat with
  | some s =>
    if s.mode = StatMode.full ∨ s.mode = StatMode.minimal then
      let fr := (s.point.set_duration elapsed).flush dialOk sendOk
      (some { s with point := fr.2.1 }, fr.2.2)
    else (some s, none)
  | none => (none, none)

/-- `az_lmdb.rs::LmdbAzContext::authorize`: the traced decision result `r` is
returned unchanged after the statistics epilogue runs. -/
def authorize (r : Except String Nat) (stat : Option Stat) (elapsed : Nat)
    (dialOk sendOk : Bool) : Except String Nat × Option Stat × Option String :=
  let ep := authorize_stat_epilogue stat elapsed dialOk sendOk
  (r, ep.1, ep.2)

/-- The per-tag counter outcome of one `update_counters` iteration, as a
function of the tag's previous counter (`old`), whether the tag's bit is set
in the running `out_access` (`curPos`) and in `prev_access` (`pPos`), and the
two flags.  Used to characterise `update_counters` one access tag at a
time. -/
def ucNewCount (old : Option Nat) (curPos pPos : Prop) [Decidable curPos] [Decidable pPos]
    (del drop : Bool) : Option Nat :=
  match old with
  | some cc =>
    if curPos then
      if drop then some (if del then 0 else 1)
      else if del then (if pPos then some ((cc + 65535) % 65536) else some cc)
      else some ((cc + 1) % 65536)
    else some cc
  | none => if ¬del ∧ curPos then some 1 else none

/-- The per-tag `out_access ∧ bit` outcome of one `update_counters`
iteration: `b` when the tag's bit ends up set, `0` when cleared or never
set. -/
def ucOutBit (old : Option Nat) (curPos pPos : Prop) [Decidable curPos] [Decidable pPos]
    (del drop : Bool) (b : Nat) : Nat :=
  match old with
  | some cc =>
    if curPos then
      if drop then (if del then 0 else b)
      else if del then
        (if pPos then (if (cc + 65535) % 65536 = 0 then 0 else b) else b)
      else b
    else (if drop ∧ cc > 0 then b else 0)
  | none => if curPos then b else 0

/-- Counter map after `n` calls of `update_counters` as an add
(`is_deleted = false`, `drop_count = false`) of the access byte `a`, starting
from the empty map, with `prev_access = cur_access = a` on every call. -/
def addCounters (a : Nat) : Nat → List (Char × Nat)
  | 0 => []
  | n + 1 => (update_counters (addCounters a n) a a false false).1

/-- Counter map after `k` removals (`is_deleted = true`, `drop_count =
false`) of the access byte `a` following `n` adds. -/
def remCounters (a n : Nat) : Nat → List (Char × Nat)
  | 0 => addCounters a n
  | k + 1 => (update_counters (remCounters a n k) a a true false).1

/-- The `u8` bit value of an access tag character (0 for non-tags). -/
def tagBit (c : Char) : Nat := (access_from_char c).getD 0

/-- The canonical tag list of an access byte: the tags of its set bits in
`ACCESS_C_FULL_LIST` order. -/
def accessTags (a : Nat) : List Char :=
  ACCESS_C_FULL_LIST.filter (fun c => decide (0 < a &&& tagBit c))

/-- Bitwise or of the bits of a tag list. -/
def orBitsK : List Char → Nat
  | [] => 0
  | c :: r => tagBit c ||| orBitsK r

/-- Bitwise or of the bits of a counter list's tags. -/
def orBitsC : List (Char × Nat) → Nat
  | [] => 0
  | tc :: r => tagBit tc.1 ||| orBitsC r

/-- The tag/count groups emitted by `encode_value_v2` for a counter list:
each tag followed by its count's decimal digits when the count exceeds 1. -/
def encGroups : List (Char × Nat) → List Char
  | [] => []
  | tc :: r => tc.1 :: (if tc.2 > 1 then toDecimal tc.2 else []) ++ encGroups r

/-- The counter entry the v2 decode loop is still holding: the current tag
together with the value its digit buffer will flush to. -/
def pendEntry (tg : Option Char) (vl : List Char) : List (Char × Nat) :=
  match tg with
  | some t => [(t, (parseU16 vl).getD 1)]
  | none => []

/-- The key of the pending entry. -/
def pendKeys (tg : Option Char) : List Char :=
  match tg with
  | some t => [t]
  | none => []

/-- The resolved view of a v2 decode state: its access, marker and the
counters after the trailing flush. -/
def v2Resolved (st : V2State) : Nat × Char × List (Char × Nat) :=
  (st.access, st.marker, v2FlushTag true st)

/-- The record produced by decoding the v2 encoding of a canonical record:
identical except that a marker, when present, also shows up as a counter of
count 1, because the v2 value parser treats the trailing marker character as
one more counter tag. -/
def v2RoundTrip (r : ACLRecord) : ACLRecord :=
  { r with counters := r.counters ++
      (if r.marker = M_IS_EXCLUSIVE ∨ r.marker = M_IGNORE_EXCLUSIVE
       then [(r.marker, 1)] else []) }

/- ### Theorems -/

/-- C3: whenever the first in-call decision attempt fails with a storage
error, `authorize_and_trace` retries the whole decision exactly once (in the
`src` revision after successfully reopening the environment, in the
`v-authorization-impl` revision over the shared environment); a failing retry
propagates the retry's error, and no call ever performs more than two
decision attempts. -/
theorem authorize_and_trace_retry_once (ctx : AzCtx) (attempts : Nat → AttemptResult)
    (rp : Bool) (e : String)
    (hpro : ctx.authorize_counter + 1 < ctx.max_authorize_counter)
    (hfail : attempts 0 = AttemptResult.err e) :
    (authorize_and_trace ctx attempts rp true).2.2 = 2 ∧
    (authorize_and_trace ctx attempts rp true).1 =
      (match attempts 1 with
       | AttemptResult.ok r => Except.ok r
       | AttemptResult.err e2 => Except.error e2) ∧
    (∀ e2, attempts 1 = AttemptResult.err e2 →
      (authorize_and_trace ctx attempts rp true).1 = Except.error e2) ∧
    (authorize_and_trace_vai ctx attempts).2.2 = 2 ∧
    (∀ e2, attempts 1 = AttemptResult.err e2 →
      (authorize_and_trace_vai ctx attempts).1 = Except.error e2) ∧
    (∀ (ctx' : AzCtx) (att' : Nat → AttemptResult) (rp' rr' : Bool),
      (authorize_and_trace ctx' att' rp' rr').2.2 ≤ 2 ∧
      (authorize_and_trace_vai ctx' att').2.2 ≤ 2) := by
  have hlt : ¬ (ctx.authorize_counter + 1 ≥ ctx.max_authorize_counter) := by omega
  refine ⟨?_, ?_, ?_, ?_, ?_, ?_⟩
  · simp only [authorize_and_trace, hlt, false_and, if_false, hfail]
    cases h1 : attempts 1 <;> simp [h1, hlt]
  · simp only [authorize_and_trace, hlt, false_and, if_false, hfail]
    cases h1 : attempts 1 <;> simp [h1, hlt]
  · intro e2 h1
    simp [authorize_and_trace, hlt, hfail, h1]
  · simp only [authorize_and_trace_vai, hfail]
    cases h1 : attempts 1 <;> simp [h1]
  · intro e2 h1
    simp [authorize_and_trace_vai, hfail, h1]
  · intro ctx' att' rp' rr'
    constructor
    · unfold authorize_and_trace
      by_cases hc : ctx'.max_authorize_counter ≤ ctx'.authorize_counter + 1 ∧ rp' = false
      · simp [hc]
      · cases h0 : att' 0 <;> cases h1 : att' 1 <;> simp [hc] <;> split_ifs <;> simp
    · unfold authorize_and_trace_vai
      cases h0 : att' 0 <;> cases h1 : att' 1 <;> simp

/-- C3 witness: a concrete failing first attempt with a succeeding retry. -/
theorem authorize_and_trace_retry_once_witness :
    (authorize_and_trace ⟨0, 10⟩
        (fun i => if i = 0 then AttemptResult.err "io" else AttemptResult.ok 2)
        true true).2.2 = 2 := by
  have h := authorize_and_trace_retry_once ⟨0, 10⟩
    (fun i => if i = 0 then AttemptResult.err "io" else AttemptResult.ok 2)
    true "io" (by decide) (by decide)
  exact h.1

/-- C4: `AzLmdbStorage::get` — a miss is `Ok(None)`, never an error; with a
cache configured the cache is consulted first and a hit short-circuits the
primary database entirely; a cache miss or cache read error falls through to
the primary lookup, whose result is returned unchanged (the cache error is
never propagated). -/
theorem storage_get_contract (db : String → DbGet) (stat : Option Stat) (key : String) :
    (db key = DbGet.missing →
      (storage_get none db stat key).1 = Except.ok none ∧
      ∀ f : String → DbGet, (∀ w, f key ≠ DbGet.found w) →
        (storage_get (some f) db stat key).1 = Except.ok none) ∧
    (∀ (f : String → DbGet) (w : String), f key = DbGet.found w →
      (∀ db' : String → DbGet, storage_get (some f) db stat key =
        storage_get (some f) db' stat key) ∧
      (storage_get (some f) db stat key).1 = Except.ok (some w)) ∧
    (∀ f : String → DbGet, f key = DbGet.missing ∨ f key = DbGet.dbErr →
      (storage_get (some f) db stat key).1 = (storage_get none db stat key).1) := by
  refine ⟨?_, ?_, ?_⟩
  · intro hmiss
    constructor
    · simp [storage_get, hmiss]
    · intro f hf
      cases hc : f key with
      | found w => exact absurd hc (hf w)
      | missing => simp [storage_get, hc, hmiss]
      | dbErr => simp [storage_get, hc, hmiss]
  · intro f w hf
    constructor
    · intro db'
      simp [storage_get, hf]
    · simp [storage_get, hf]
  · intro f hf
    rcases hf with hf | hf <;>
      cases hdb : db key <;> simp [storage_get, hf, hdb, message]

/-- C4 witness: a concrete miss with a concrete erroring cache. -/
theorem storage_get_contract_witness :
    (storage_get (some fun _ => DbGet.dbErr) (fun _ => DbGet.missing) none "k").1 =
      Except.ok none := by
  have h := (storage_get_contract (fun _ => DbGet.missing) none "k").1 rfl
  exact h.2 (fun _ => DbGet.dbErr) (fun w h => by cases h)

/-- C5 counterexample: with no cache configured the collected entry for a key
served from the primary database is `key ++ "/B"`, not the bare `key` the
claim assigns to that case. -/
theorem stat_entry_counterexample : message "k" false false = "k/B" ∧ "k/B" ≠ "k" :=
  ⟨rfl, by decide⟩

/-- C5 (amended): every message that reaches the statistics socket equals
`sender_id "," duration_micros "," entries joined by ";"`, and every entry
built for a key lookup is `key ++ "/B"` (no cache configured), `key ++ "/cB"`
(cache configured, served from the primary database) or `key ++ "/C"` (cache
hit) — a bare key never occurs. -/
theorem flush_wire_format (p : StatPub) (dialOk sendOk : Bool) (m : String)
    (hsent : (p.flush dialOk sendOk).2.2 = some m) :
    m = p.sender_id ++ "," ++ (toDecimal p.duration).asString ++ "," ++
        String.intercalate ";" p.message_buffer ∧
    (∀ key : String,
      message key false false = key ++ "/B" ∧ message key false true = key ++ "/B" ∧
      message key true false = key ++ "/cB" ∧ message key true true = key ++ "/C") := by
  constructor
  · unfold StatPub.flush at hsent
    by_cases hconn : p.is_connected <;> by_cases hd : dialOk <;> by_cases hs : sendOk <;>
      simp [hconn, hd, hs] at hsent <;> exact hsent.symm
  · intro key
    exact ⟨rfl, rfl, rfl, rfl⟩

/-- C5 witness: a concrete flush produces the expected concrete message. -/
theorem flush_wire_format_witness :
    ((StatPub.mk "id" true ["a/B", "b/C"] 7).flush true true).2.2 = some "id,7,a/B;b/C" ∧
    "id,7,a/B;b/C" = "id" ++ "," ++ (toDecimal 7).asString ++ "," ++
      String.intercalate ";" ["a/B", "b/C"] :=
  ⟨rfl, (flush_wire_format (StatPub.mk "id" true ["a/B", "b/C"] 7) true true "id,7,a/B;b/C" rfl).1⟩

/-- C7 counterexample: a flush whose dial fails returns early and leaves the
message buffer intact, contradicting the claim that the buffer is empty after
every call. -/
theorem flush_clears_counterexample :
    (((StatPub.mk "s" false ["k/B"] 0).flush false true).2.1.message_buffer = ["k/B"]) ∧
    ["k/B"] ≠ ([] : List String) :=
  ⟨rfl, by decide⟩

/-- C7 (amended): after a successful flush the buffer is empty; when the dial
or the send fails, flush returns the error early and the buffer is left
unchanged (the caller only logs the error). -/
theorem flush_buffer_on_result (p : StatPub) (dialOk sendOk : Bool) :
    ((p.flush dialOk sendOk).1 = Except.ok () →
      (p.flush dialOk sendOk).2.1.message_buffer = []) ∧
    ((p.flush dialOk sendOk).1 ≠ Except.ok () →
      (p.flush dialOk sendOk).2.1.message_buffer = p.message_buffer) := by
  unfold StatPub.flush
  by_cases hconn : p.is_connected <;> by_cases hd : dialOk <;> by_cases hs : sendOk <;>
    simp [hconn, hd, hs]

/-- C7 witness: a concrete successful flush leaves an empty buffer. -/
theorem flush_buffer_on_result_witness :
    (((StatPub.mk "s" true ["x"] 0).flush true true).2.1.message_buffer = []) :=
  (flush_buffer_on_result (StatPub.mk "s" true ["x"] 0) true true).1 rfl

/-- C8 counterexample: in `Full` mode a lookup that misses records nothing —
the key `"k"` is looked up but the sidecar is returned untouched with an
empty buffer, refuting "every key looked up by storage get is recorded". -/
theorem stat_full_miss_counterexample :
    (storage_get none (fun _ => DbGet.missing)
        (some ⟨⟨"s", false, [], 0⟩, StatMode.full⟩) "k").2 =
      some ⟨⟨"s", false, [], 0⟩, StatMode.full⟩ ∧
    (Stat.mk ⟨"s", false, [], 0⟩ StatMode.full).point.message_buffer = [] :=
  ⟨rfl, rfl⟩

/-- C8 (amended): in `Full` mode every key lookup that yields a value appends
exactly one entry (with cache provenance) to the sidecar buffer, while misses
and errors record nothing; in `Minimal` and `None` mode no key is ever
recorded; in `Full` and `Minimal` mode the decision epilogue sets the
duration and flushes, in `None` mode nothing is flushed; the access byte
returned by `authorize` is the decision result, whatever the sidecar does. -/
theorem stat_modes (db : String → DbGet) (key : String) (s : Stat) :
    (s.mode = StatMode.full →
      (∀ v, db key = DbGet.found v →
        (storage_get none db (some s) key).2 =
          some ⟨s.point.collect (message key false false), s.mode⟩) ∧
      (∀ f v, f key = DbGet.found v →
        (storage_get (some f) db (some s) key).2 =
          some ⟨s.point.collect (message key true true), s.mode⟩) ∧
      (∀ f v, f key = DbGet.missing → db key = DbGet.found v →
        (storage_get (some f) db (some s) key).2 =
          some ⟨s.point.collect (message key true false), s.mode⟩) ∧
      (db key = DbGet.missing ∨ db key = DbGet.dbErr →
        (storage_get none db (some s) key).2 = some s)) ∧
    (s.mode ≠ StatMode.full →
      ∀ cache_db : Option (String → DbGet),
        (storage_get cache_db db (some s) key).2 = some s) ∧
    ((s.mode = StatMode.full ∨ s.mode = StatMode.minimal) →
      ∀ elapsed : Nat,
        (authorize_stat_epilogue (some s) elapsed true true).2 =
          some (s.point.sender_id ++ "," ++ (toDecimal elapsed).asString ++ "," ++
                String.intercalate ";" s.point.message_buffer)) ∧
    (s.mode = StatMode.off →
      ∀ elapsed dialOk sendOk,
        authorize_stat_epilogue (some s) elapsed dialOk sendOk = (some s, none)) ∧
    (∀ (r : Except String Nat) (stat : Option Stat) (elapsed : Nat) (dialOk sendOk : Bool),
      (authorize r stat elapsed dialOk sendOk).1 = r) := by
  refine ⟨?_, ?_, ?_, ?_, ?_⟩
  · intro hm
    refine ⟨?_, ?_, ?_, ?_⟩
    · intro v hdb
      simp [storage_get, hdb, hm, statCollect]
    · intro f v hf
      simp [storage_get, hf, hm, statCollect]
    · intro f v hf hdb
      simp [storage_get, hf, hdb, hm, statCollect]
    · rintro (hdb | hdb) <;> simp [storage_get, hdb]
  · intro hm cache_db
    rcases cache_db with _ | f
    · cases hdb : db key <;> simp [storage_get, hdb, statCollect, hm]
    · cases hf : f key <;> cases hdb : db key <;>
        simp [storage_get, hf, hdb, statCollect, hm]
  · rintro hm elapsed
    have hmode : (s.mode = StatMode.full ∨ s.mode = StatMode.minimal) := hm
    simp only [authorize_stat_epilogue, hmode, if_pos]
    unfold StatPub.flush StatPub.set_duration
    by_cases hconn : s.point.is_connected <;> simp [hconn]
  · intro hm elapsed dialOk sendOk
    simp [authorize_stat_epilogue, hm]
  · intro r stat elapsed dialOk sendOk
    simp [authorize]

/-- C8 witness: a concrete `Full`-mode hit records the `/B` entry. -/
theorem stat_modes_witness :
    (storage_get none (fun _ => DbGet.found "X")
        (some ⟨⟨"s", false, [], 0⟩, StatMode.full⟩) "k").2 =
      some ⟨(StatPub.mk "s" false [] 0).collect (message "k" false false), StatMode.full⟩ :=
  (((stat_modes (fun _ => DbGet.found "X") "k" ⟨⟨"s", false, [], 0⟩, StatMode.full⟩).1 rfl).1) "X" rfl

/-- C9: `decode_filter` always returns a record, and when the input after
date extraction is shorter than three bytes the record has an empty id and
zero access. -/
theorem decode_filter_total (s : String) :
    ((decode_filter s).1).isSome = true ∧
    (utf8Len (extract_date s.data).2 < 3 →
      (decode_filter s).1 = some (ACLRecord.new_with_access "" 0)) := by
  constructor
  · unfold decode_filter
    dsimp only
    split
    · rfl
    · split <;> rfl
  · intro h
    unfold decode_filter
    simp [h]

/-- C9 witness: the two-byte input `"ab"`. -/
theorem decode_filter_total_witness :
    utf8Len (extract_date "ab".data).2 < 3 ∧
    (decode_filter "ab").1 = some (ACLRecord.new_with_access "" 0) :=
  ⟨by decide, (decode_filter_total "ab").2 (by decide)⟩

/-- C6 counterexample: for the input `"ab"` no record decodes, yet
`decode_filter` returns a record whose id is `""`, not the raw input `"ab"`
the claim requires. -/
theorem decode_filter_raw_id_counterexample :
    (decode_rec_to_rights "ab").2.2 = [] ∧
    (decode_filter "ab").1 = some (ACLRecord.new_with_access "" 0) ∧
    (ACLRecord.new_with_access "" 0).id ≠ "ab" := by
  refine ⟨rfl, rfl, by decide⟩

/-- C6 (amended): for every input whose remainder after stripping the
validity-date prefix is at least three bytes long and from which zero records
decode, `decode_filter` returns a zero-access record whose id is that
remainder, together with the extracted date; for shorter remainders the
returned id is empty instead. -/
theorem decode_filter_fallback (s : String)
    (hlen : ¬ utf8Len (extract_date s.data).2 < 3)
    (hempty : (decode_rec_to_rights ((extract_date s.data).2.asString)).2.2 = []) :
    (decode_filter s).1 =
      some (ACLRecord.new_with_access ((extract_date s.data).2.asString) 0) ∧
    (decode_filter s).2 = (extract_date s.data).1 := by
  unfold decode_filter
  dsimp only
  simp only [hlen, if_false]
  rw [hempty]
  exact ⟨rfl, rfl⟩

/-- C6 witness: the input `"zzz"` decodes to no records and comes back as the
id of the fallback record. -/
theorem decode_filter_fallback_witness :
    (decode_filter "zzz").1 = some (ACLRecord.new_with_access "zzz" 0) := by
  have h := decode_filter_fallback "zzz" (by decide) (by decide)
  exact h.1

/-- Looking up the key just inserted yields the inserted value. -/
theorem lookupA_insertA_self (l : List (Char × Nat)) (c : Char) (v : Nat) :
    lookupA (insertA l c v) c = some v := by
  induction l with
  | nil => simp [insertA, lookupA]
  | cons h t ih =>
    obtain ⟨k, w⟩ := h
    by_cases hk : k = c <;> simp [insertA, lookupA, hk, ih]

/-- A character with an access value is one of the eight tag characters and
is neither marker. -/
theorem access_from_char_isTag {t : Char} {a : Nat} (h : access_from_char t = some a) :
    v2IsTag t = true ∧ t ≠ M_IS_EXCLUSIVE ∧ t ≠ M_IGNORE_EXCLUSIVE := by
  unfold access_from_char at h
  split at h <;> simp_all <;> decide

/-- The `decode_value_v2` loop only accumulates the counter token over a run
of non-tag characters. -/
theorem v2_foldl_nontag (wc : Bool) (l : List Char) (st : V2State)
    (h : ∀ c ∈ l, v2IsTag c = false) :
    List.foldl (v2Step wc) st l = { st with val := st.val ++ l } := by
  induction l generalizing st with
  | nil => simp
  | cons c t ih =>
    have hc := h c (List.mem_cons_self c t)
    have ht : ∀ x ∈ t, v2IsTag x = false := fun x hx => h x (List.mem_cons_of_mem c hx)
    simp only [List.foldl_cons, v2Step, hc, Bool.false_eq_true, if_false]
    rw [ih _ ht]
    simp

/-- `extract_date` either extracts nothing and returns the input intact, or
extracts a date. -/
theorem extract_date_cases (l : List Char) :
    extract_date l = (none, l) ∨ ∃ d tail, extract_date l = (some d, tail) := by
  unfold extract_date
  split
  · split
    · split
      · split
        · right; exact ⟨_, _, rfl⟩
        · left; rfl
      · left; rfl
    · left; rfl
  · left; rfl

/-- C10: totality fallbacks of the decoders — an unparsable counter token
after a tag defaults that tag's counter to 1; a character that is neither a
hex digit nor a marker is skipped by the v1 decoder without corrupting the
rest; an unparsable date prefix yields no date with parsing continuing on the
full string; and the three public decoders return a value on every input. -/
theorem decoders_total_fallbacks :
    (∀ (t : Char) (a : Nat) (garbage : List Char) (rr : ACLRecord),
      access_from_char t = some a →
      (∀ c ∈ garbage, v2IsTag c = false) →
      parseU16 garbage = none →
      lookupA (decode_value_v2 (t :: garbage) rr true).counters t = some 1) ∧
    (∀ (pre post : List Char) (c : Char) (rr : ACLRecord) (wc : Bool),
      hexDigit? c = none → c ≠ M_IS_EXCLUSIVE → c ≠ M_IGNORE_EXCLUSIVE →
      decode_value_v1 (pre ++ c :: post) rr wc = decode_value_v1 (pre ++ post) rr wc) ∧
    (∀ l : List Char, (extract_date l).1 = none → (extract_date l).2 = l) ∧
    (∀ s : String, ∃ ok date recs, decode_rec_to_rights s = (ok, date, recs)) ∧
    (∀ (s : String) (init : List (String × ACLRecord)), ∃ ok date set,
      decode_rec_to_rightset s init = (ok, date, set)) ∧
    (∀ s : String, ∃ rec date, decode_filter s = (rec, date)) := by
  refine ⟨?_, ?_, ?_, ?_, ?_, ?_⟩
  · intro t a garbage rr ht hg hp
    obtain ⟨htag, hx, hn⟩ := access_from_char_isTag ht
    unfold decode_value_v2
    simp only [List.foldl_cons]
    have hstep1 : v2Step true
        { access := 0, marker := rr.marker, tag := none, val := [], counters := rr.counters } t =
        { access := Nat.lor 0 a, marker := rr.marker, tag := some t, val := [],
          counters := rr.counters } := by
      simp [v2Step, htag, hx, hn, ht, v2FlushTag, HOr.hOr, OrOp.or]
    rw [hstep1, v2_foldl_nontag true garbage _ hg]
    simp [v2FlushTag, hp, lookupA_insertA_self]
  · intro pre post c rr wc hhex hx hn
    unfold decode_value_v1
    have hstep : ∀ st : V1State, v1Step st c = st := by
      intro st
      simp [v1Step, hx, hn, hhex]
    rw [List.foldl_append, List.foldl_cons, hstep, ← List.foldl_append]
  · intro l h
    rcases extract_date_cases l with hcase | ⟨d, tail, hcase⟩
    · rw [hcase]
    · rw [hcase] at h
      simp at h
  · intro s
    exact ⟨_, _, _, rfl⟩
  · intro s init
    exact ⟨_, _, _, rfl⟩
  · intro s
    exact ⟨_, _, rfl⟩

/-- C10 witness: a garbage counter token after `'R'` defaults to 1, the
non-hex character `'g'` is skipped by the v1 decoder, and an unparsable date
prefix keeps the whole string. -/
theorem decoders_total_fallbacks_witness :
    lookupA (decode_value_v2 ('R' :: ['z', 'z']) (ACLRecord.new "k") true).counters 'R' =
      some 1 ∧
    decode_value_v1 (['1'] ++ 'g' :: ['2']) (ACLRecord.new "k") false =
      decode_value_v1 (['1'] ++ ['2']) (ACLRecord.new "k") false ∧
    (extract_date ('T' :: ['a', ',', 'x'])).2 = 'T' :: ['a', ',', 'x'] :=
  ⟨decoders_total_fallbacks.1 'R' 2 ['z', 'z'] (ACLRecord.new "k") rfl (by decide) (by decide),
   decoders_total_fallbacks.2.1 ['1'] ['2'] 'g' (ACLRecord.new "k") false
     (by decide) (by decide) (by decide),
   decoders_total_fallbacks.2.2.1 ('T' :: ['a', ',', 'x']) (by decide)⟩

/-- Inserting under a different key does not change a lookup. -/
theorem lookupA_insertA_ne (l : List (Char × Nat)) {k c : Char} (v : Nat) (hne : k ≠ c) :
    lookupA (insertA l k v) c = lookupA l c := by
  induction l with
  | nil => simp [insertA, lookupA, hne]
  | cons h t ih =>
    obtain ⟨k', w⟩ := h
    by_cases hk : k' = k <;> simp [insertA, lookupA, hk, hne, ih]

/-- Conjunction distributes over disjunction on the right for `&&&`. -/
theorem land_lor_right (x y z : Nat) : (x ||| y) &&& z = (x &&& z) ||| (y &&& z) := by
  apply Nat.eq_of_testBit_eq
  intro j
  simp only [Nat.testBit_and, Nat.testBit_or]
  cases x.testBit j <;> cases y.testBit j <;> cases z.testBit j <;> rfl

/-- `x &&& 2^i` isolates the `i`-th bit. -/
theorem land_two_pow (x i : Nat) : x &&& 2 ^ i = if x.testBit i then 2 ^ i else 0 := by
  apply Nat.eq_of_testBit_eq
  intro j
  rw [Nat.testBit_and, Nat.testBit_two_pow]
  by_cases hij : i = j
  · subst hij
    cases h : x.testBit i <;> simp [h, Nat.testBit_two_pow]
  · cases h : x.testBit i <;> simp [h, hij, Nat.testBit_two_pow, Nat.zero_testBit]

/-- Setting a bit makes it read back. -/
theorem lor_land_two_pow_self (x i : Nat) : (x ||| 2 ^ i) &&& 2 ^ i = 2 ^ i := by
  apply Nat.eq_of_testBit_eq
  intro j
  rw [Nat.testBit_and, Nat.testBit_or, Nat.testBit_two_pow]
  by_cases hij : i = j <;> simp [hij]

/-- The `u8` complement of a low bit does not contain that bit. -/
theorem xor255_land_self {i : Nat} (hi : i < 8) : (255 ^^^ 2 ^ i) &&& 2 ^ i = 0 := by
  interval_cases i <;> decide

/-- Clearing a bit via the `u8` complement makes it read zero. -/
theorem land_xor255_land_self (x : Nat) {i : Nat} (hi : i < 8) :
    (x &&& (255 ^^^ 2 ^ i)) &&& 2 ^ i = 0 := by
  rw [Nat.land_assoc, xor255_land_self hi, Nat.and_zero]

/-- Distinct access tags have disjoint bits, and clearing one leaves the
other readable. -/
theorem clist_bits_ne {c' c : Char} {b' b : Nat} (hc' : access8_from_char c' = some b')
    (hb : access8_from_char c = some b) (hne : c' ≠ c) :
    b' &&& b = 0 ∧ (255 ^^^ b') &&& b = b ∧ b' < 256 := by
  unfold access8_from_char at hc' hb
  split at hc' <;> split at hb <;> simp_all <;> subst_vars <;> decide

/-- Every access tag's bit is a low power of two. -/
theorem access8_two_pow {c : Char} {b : Nat} (hb : access8_from_char c = some b) :
    ∃ i, i < 8 ∧ b = 2 ^ i := by
  unfold access8_from_char at hb
  split at hb <;> simp_all <;> subst_vars <;>
    first
      | exact ⟨0, by decide, by decide⟩
      | exact ⟨1, by decide, by decide⟩
      | exact ⟨2, by decide, by decide⟩
      | exact ⟨3, by decide, by decide⟩
      | exact ⟨4, by decide, by decide⟩
      | exact ⟨5, by decide, by decide⟩
      | exact ⟨6, by decide, by decide⟩
      | exact ⟨7, by decide, by decide⟩

/-- One `update_counters` iteration for a different tag neither changes this
tag's counter nor this tag's bit of `out_access`, and keeps the byte below
256. -/
theorem ucStep_frame (p : Nat) (del drop : Bool) (st : List (Char × Nat) × Nat)
    {c' c : Char} {b : Nat} (hne : c' ≠ c) (hb : access8_from_char c = some b) :
    lookupA (ucStep p del drop st c').1 c = lookupA st.1 c ∧
    (ucStep p del drop st c').2 &&& b = st.2 &&& b ∧
    (st.2 < 256 → (ucStep p del drop st c').2 < 256) := by
  rcases hc' : access8_from_char c' with _ | b'
  · simp [ucStep, hc']
  · obtain ⟨h0, hm, hb'lt⟩ := clist_bits_ne hc' hb hne
    have hins : ∀ v, lookupA (insertA st.1 c' v) c = lookupA st.1 c :=
      fun v => lookupA_insertA_ne st.1 v hne
    have hor : (st.2 ||| b') &&& b = st.2 &&& b := by
      rw [land_lor_right, h0, Nat.or_zero]
    have hand : (st.2 &&& (255 ^^^ b')) &&& b = st.2 &&& b := by
      rw [Nat.land_assoc, hm]
    have horlt : st.2 < 256 → st.2 ||| b' < 256 := fun h =>
      Nat.or_lt_two_pow (n := 8) h hb'lt
    have handlt : st.2 < 256 → st.2 &&& (255 ^^^ b') < 256 := fun h =>
      Nat.lt_of_le_of_lt Nat.and_le_left h
    unfold ucStep
    rw [hc']
    rcases hl : lookupA st.1 c' with _ | cc <;> dsimp only <;> split_ifs <;>
      exact ⟨by simp [hins], by simp [hor, hand],
        by intro h; first | exact horlt h | exact handlt h | exact h⟩

/-- Folding `update_counters` iterations over tags not containing `c`
preserves `c`'s counter and bit. -/
theorem ucFold_frame (p : Nat) (del drop : Bool) (l : List Char)
    (st : List (Char × Nat) × Nat) {c : Char} {b : Nat}
    (hb : access8_from_char c = some b) (hnotin : c ∉ l) :
    lookupA (List.foldl (ucStep p del drop) st l).1 c = lookupA st.1 c ∧
    (List.foldl (ucStep p del drop) st l).2 &&& b = st.2 &&& b ∧
    (st.2 < 256 → (List.foldl (ucStep p del drop) st l).2 < 256) := by
  induction l generalizing st with
  | nil => exact ⟨rfl, rfl, fun h => h⟩
  | cons c' t ih =>
    have hne : c' ≠ c := by
      rintro rfl
      exact hnotin (List.mem_cons_self _ _)
    have hnotin' : c ∉ t := fun h => hnotin (List.mem_cons_of_mem _ h)
    obtain ⟨h1, h2, h3⟩ := ucStep_frame p del drop st hne hb
    obtain ⟨g1, g2, g3⟩ := ih (ucStep p del drop st c') hnotin'
    exact ⟨g1.trans h1, g2.trans h2, fun hlt => g3 (h3 hlt)⟩

/-- One `update_counters` iteration at the tag itself: the new counter and
the tag's resulting bit of `out_access` are `ucNewCount` and `ucOutBit` of
the previous counter. -/
theorem ucStep_at (p : Nat) (del drop : Bool) (st : List (Char × Nat) × Nat)
    {c : Char} {b i : Nat} (hb : access8_from_char c = some b)
    (hbp : b = 2 ^ i) (hi : i < 8) :
    lookupA (ucStep p del drop st c).1 c =
      ucNewCount (lookupA st.1 c) (0 < st.2 &&& b) (0 < p &&& b) del drop ∧
    (ucStep p del drop st c).2 &&& b =
      ucOutBit (lookupA st.1 c) (0 < st.2 &&& b) (0 < p &&& b) del drop b ∧
    (st.2 < 256 → (ucStep p del drop st c).2 < 256) := by
  have hbpos : 0 < b := by
    rw [hbp]
    exact Nat.pos_pow_of_pos i (by omega)
  have hcases : st.2 &&& b = b ∨ st.2 &&& b = 0 := by
    rw [hbp, land_two_pow]
    split
    · exact Or.inl rfl
    · exact Or.inr rfl
  have horself : (st.2 ||| b) &&& b = b := by
    rw [hbp]
    exact lor_land_two_pow_self st.2 i
  have handself : ∀ x, (x &&& (255 ^^^ b)) &&& b = 0 := by
    intro x
    rw [hbp]
    exact land_xor255_land_self x hi
  have horlt : st.2 < 256 → st.2 ||| b < 256 := fun h =>
    Nat.or_lt_two_pow (n := 8) h (by rw [hbp]; exact Nat.pow_lt_pow_right (by omega) hi)
  have handlt : st.2 < 256 → st.2 &&& (255 ^^^ b) < 256 := fun h =>
    Nat.lt_of_le_of_lt Nat.and_le_left h
  unfold ucStep
  rw [hb]
  rcases hl : lookupA st.1 c with _ | cc <;>
    rcases hcases with hc | hc <;>
    dsimp only <;> split_ifs <;>
    refine ⟨?_, ?_, ?_⟩ <;>
    simp_all [ucNewCount, ucOutBit, lookupA_insertA_self]

/-- Folding the `update_counters` iterations over a duplicate-free tag list
containing `c` transforms `c`'s counter by `ucNewCount` and `c`'s bit of the
running `out_access` by `ucOutBit`. -/
theorem ucFold_at (p : Nat) (del drop : Bool) (l : List Char)
    (st : List (Char × Nat) × Nat) {c : Char} {b i : Nat}
    (hb : access8_from_char c = some b) (hbp : b = 2 ^ i) (hi : i < 8)
    (hmem : c ∈ l) (hnodup : l.Nodup) :
    lookupA (List.foldl (ucStep p del drop) st l).1 c =
      ucNewCount (lookupA st.1 c) (0 < st.2 &&& b) (0 < p &&& b) del drop ∧
    (List.foldl (ucStep p del drop) st l).2 &&& b =
      ucOutBit (lookupA st.1 c) (0 < st.2 &&& b) (0 < p &&& b) del drop b ∧
    (st.2 < 256 → (List.foldl (ucStep p del drop) st l).2 < 256) := by
  induction l generalizing st with
  | nil => cases hmem
  | cons c' t ih =>
    rcases List.mem_cons.mp hmem with rfl | hmem'
    · have hnotin : c ∉ t := (List.nodup_cons.mp hnodup).1
      obtain ⟨s1, s2, s3⟩ := ucStep_at p del drop st hb hbp hi
      obtain ⟨f1, f2, f3⟩ := ucFold_frame p del drop t (ucStep p del drop st c) hb hnotin
      exact ⟨f1.trans s1, f2.trans s2, fun h => f3 (s3 h)⟩
    · by_cases hcc : c' = c
      · subst hcc
        exact absurd hmem' (List.nodup_cons.mp hnodup).1
      · obtain ⟨s1, s2, s3⟩ := ucStep_frame p del drop st hcc hb
        obtain ⟨g1, g2, g3⟩ := ih (ucStep p del drop st c') hmem' (List.nodup_cons.mp hnodup).2
        refine ⟨?_, ?_, fun h => g3 (s3 h)⟩
        · rw [List.foldl_cons, g1]
          simp only [s1, s2]
        · rw [List.foldl_cons, g2]
          simp only [s1, s2]

/-- `update_counters` one tag at a time: for every access tag `c` with bit
`b`, the resulting counter of `c` and the bit `b` of the resulting
`out_access` are `ucNewCount`/`ucOutBit` of the incoming counter of `c`,
with the incoming bit tests taken on `cur_access` and `prev_access`; the
resulting byte stays below 256. -/
theorem update_counters_at (cl : List (Char × Nat)) (p cur : Nat) (del drop : Bool)
    {c : Char} {b : Nat} (hb : access8_from_char c = some b)
    (hc : c ∈ ACCESS_C_FULL_LIST) (hcur : cur < 256) :
    lookupA (update_counters cl p cur del drop).1 c =
      ucNewCount (lookupA cl c) (0 < cur &&& b) (0 < p &&& b) del drop ∧
    (update_counters cl p cur del drop).2 &&& b =
      ucOutBit (lookupA cl c) (0 < cur &&& b) (0 < p &&& b) del drop b ∧
    (update_counters cl p cur del drop).2 < 256 := by
  obtain ⟨i, hi, hbp⟩ := access8_two_pow hb
  have hnodup : (ACCESS_C_FULL_LIST).Nodup := by decide
  obtain ⟨g1, g2, g3⟩ := ucFold_at p del drop ACCESS_C_FULL_LIST (cl, cur) hb hbp hi hc hnodup
  exact ⟨g1, g2, g3 hcur⟩

/-- A cleared low bit reads back as an unset test bit. -/
theorem testBit_of_land_zero {x i : Nat} (h : x &&& 2 ^ i = 0) : x.testBit i = false := by
  rw [land_two_pow] at h
  by_cases ht : x.testBit i
  · rw [if_pos ht] at h
    have hpos : 0 < 2 ^ i := Nat.pos_pow_of_pos i (by omega)
    omega
  · exact Bool.not_eq_true _ ▸ (by simpa using ht)

/-- After `n ≥ 1` adds of the byte `a`, every tag of a set bit of `a` carries
the counter `n % 65536` and no other tag has a counter. -/
theorem addCounters_lookup (a : Nat) (ha : a < 256) (n : Nat) (hn : 1 ≤ n)
    {c : Char} {b : Nat} (hb : access8_from_char c = some b)
    (hc : c ∈ ACCESS_C_FULL_LIST) :
    lookupA (addCounters a n) c = if 0 < a &&& b then some (n % 65536) else none := by
  induction n with
  | zero => omega
  | succ k ih =>
    by_cases hk : 1 ≤ k
    · have ihk := ih hk
      unfold addCounters
      obtain ⟨g1, _, _⟩ := update_counters_at (addCounters a k) a a false false hb hc ha
      rw [g1, ihk]
      by_cases hpos : 0 < a &&& b <;> simp [hpos, ucNewCount]
    · have hk0 : k = 0 := by omega
      subst hk0
      unfold addCounters
      obtain ⟨g1, _, _⟩ := update_counters_at (addCounters a 0) a a false false hb hc ha
      rw [g1]
      unfold addCounters
      by_cases hpos : 0 < a &&& b <;> simp [hpos, ucNewCount, lookupA]

/-- After `k < n` removals following `n` adds, every set-bit tag carries the
counter `(n - k) % 65536`. -/
theorem remCounters_lookup (a : Nat) (ha : a < 256) (n : Nat) (hn : 1 ≤ n)
    {c : Char} {b : Nat} (hb : access8_from_char c = some b)
    (hc : c ∈ ACCESS_C_FULL_LIST) (k : Nat) (hk : k < n) :
    lookupA (remCounters a n k) c = if 0 < a &&& b then some ((n - k) % 65536) else none := by
  induction k with
  | zero =>
    simpa using addCounters_lookup a ha n hn hb hc
  | succ j ih =>
    have hj : j < n := by omega
    unfold remCounters
    obtain ⟨g1, _, _⟩ := update_counters_at (remCounters a n j) a a true false hb hc ha
    rw [g1, ih hj]
    by_cases hpos : 0 < a &&& b <;> simp [hpos, ucNewCount] <;> try omega

/-- C2: starting from the empty counter map and with `prev_access =
cur_access = a` on every call, `n` adds (`is_deleted = false`) followed by
`n` removals (`is_deleted = true`), never setting `drop_count`, end with
`out_access = 0` on the last removal; and whenever `drop_count` is set, an
existing counter of a bit set in `cur_access` is forced to 0 (when
`is_deleted`) or 1 (when not) instead of being decremented or incremented. -/
theorem update_counters_law (a n : Nat) (ha : a < 256) (hn : 1 ≤ n) :
    (update_counters (remCounters a n (n - 1)) a a true false).2 = 0 ∧
    (∀ (cl : List (Char × Nat)) (p cur : Nat) (del : Bool) (c : Char) (b cc : Nat),
      cur < 256 → access8_from_char c = some b → c ∈ ACCESS_C_FULL_LIST →
      0 < cur &&& b → lookupA cl c = some cc →
      lookupA (update_counters cl p cur del true).1 c = some (if del then 0 else 1)) := by
  constructor
  · have hlast : ∀ {c : Char} {b : Nat}, access8_from_char c = some b →
        c ∈ ACCESS_C_FULL_LIST →
        lookupA (remCounters a n (n - 1)) c = if 0 < a &&& b then some 1 else none := by
      intro c b hb hc
      rw [remCounters_lookup a ha n hn hb hc (n - 1) (by omega)]
      by_cases hpos : 0 < a &&& b <;> simp [hpos] <;> try omega
    have hbit : ∀ {c : Char} {b : Nat}, access8_from_char c = some b →
        c ∈ ACCESS_C_FULL_LIST →
        (update_counters (remCounters a n (n - 1)) a a true false).2 &&& b = 0 := by
      intro c b hb hc
      obtain ⟨_, g2, _⟩ :=
        update_counters_at (remCounters a n (n - 1)) a a true false hb hc ha
      rw [g2, hlast hb hc]
      by_cases hpos : 0 < a &&& b <;> simp [hpos, ucOutBit]
    have hlt : (update_counters (remCounters a n (n - 1)) a a true false).2 < 256 :=
      (update_counters_at (remCounters a n (n - 1)) a a true false
        (c := 'M') (b := 1) rfl (by decide) ha).2.2
    apply Nat.eq_of_testBit_eq
    intro j
    rw [Nat.zero_testBit]
    rcases Nat.lt_or_ge j 8 with hj | hj
    · interval_cases j
      · exact testBit_of_land_zero (hbit (c := 'M') rfl (by decide))
      · exact testBit_of_land_zero (hbit (c := 'R') rfl (by decide))
      · exact testBit_of_land_zero (hbit (c := 'U') rfl (by decide))
      · exact testBit_of_land_zero (hbit (c := 'P') rfl (by decide))
      · exact testBit_of_land_zero (hbit (c := 'm') rfl (by decide))
      · exact testBit_of_land_zero (hbit (c := 'r') rfl (by decide))
      · exact testBit_of_land_zero (hbit (c := 'u') rfl (by decide))
      · exact testBit_of_land_zero (hbit (c := 'p') rfl (by decide))
    · have h256 : (256 : Nat) = 2 ^ 8 := by norm_num
      exact Nat.testBit_lt_two_pow
        (Nat.lt_of_lt_of_le (h256 ▸ hlt) (Nat.pow_le_pow_right (by omega) hj))
  · intro cl p cur del c b cc hcur hb hc hpos hl
    obtain ⟨g1, _, _⟩ := update_counters_at cl p cur del true hb hc hcur
    rw [g1, hl]
    simp [ucNewCount, hpos]

/-- C2 witness: two adds then two removals of the read bit end at zero, and a
drop-count removal forces an existing counter of 7 to 0. -/
theorem update_counters_law_witness :
    (update_counters (remCounters 2 2 1) 2 2 true false).2 = 0 ∧
    lookupA (update_counters [('R', 7)] 0 2 true true).1 'R' = some 0 := by
  constructor
  · exact (update_counters_law 2 2 (by decide) (by decide)).1
  · have h := (update_counters_law 2 2 (by decide) (by decide)).2 [('R', 7)] 0 2 true 'R' 2 7
      (by decide) rfl (by decide) (by decide) rfl
    simpa using h

/-- Rebuilding a string from its characters is the identity. -/
theorem asString_data (s : String) : s.data.asString = s := by
  cases s
  rfl

/-- `split_once(',')` finds nothing in a comma-free list. -/
theorem splitOnceComma_eq_none (l : List Char) (h : ',' ∉ l) : splitOnceComma l = none := by
  induction l with
  | nil => rfl
  | cons c t ih =>
    have hc : ¬ c = ',' := fun hh => h (hh ▸ List.mem_cons_self c t)
    have ht := ih (fun hm => h (List.mem_cons_of_mem _ hm))
    simp [splitOnceComma, hc, ht]

/-- `extract_date` on a comma-free list finds no date and keeps the list. -/
theorem extract_date_no_comma (l : List Char) (h : ',' ∉ l) : extract_date l = (none, l) := by
  cases l with
  | nil => rfl
  | cons c t =>
    by_cases hc : c = 'T'
    · have hsp : splitOnceComma t = none :=
        splitOnceComma_eq_none t (fun hm => h (List.mem_cons_of_mem _ hm))
      simp [extract_date, hc, hsp]
    · simp [extract_date, hc]

/-- `split(';')` of a semicolon-free list is that single piece. -/
theorem splitSemi_no_semi (l : List Char) (h : ';' ∉ l) : splitSemi l = [l] := by
  induction l with
  | nil => rfl
  | cons c t ih =>
    have hc : ¬ c = ';' := fun hh => h (hh ▸ List.mem_cons_self c t)
    have ht := ih (fun hm => h (List.mem_cons_of_mem _ hm))
    simp [splitSemi, hc, ht]

/-- `split(';')` at the first separator after a semicolon-free prefix. -/
theorem splitSemi_append (xs ys : List Char) (h : ';' ∉ xs) :
    splitSemi (xs ++ ';' :: ys) = xs :: splitSemi ys := by
  induction xs with
  | nil => simp [splitSemi]
  | cons c t ih =>
    have hc : ¬ c = ';' := fun hh => h (hh ▸ List.mem_cons_self c t)
    have ht := ih (fun hm => h (List.mem_cons_of_mem _ hm))
    simp only [List.cons_append, splitSemi, hc, if_false, List.append_eq]
    rw [ht]

/-- A key outside the key list looks up to nothing. -/
theorem lookupA_eq_none (l : List (Char × Nat)) (c : Char) (h : c ∉ l.map Prod.fst) :
    lookupA l c = none := by
  induction l with
  | nil => rfl
  | cons p t ih =>
    obtain ⟨k, v⟩ := p
    have hk : ¬ k = c := fun hh => h (by simp [hh])
    have ht := ih (fun hm => h (by simp; right; simpa using hm))
    simp [lookupA, hk, ht]

/-- Inserting an absent key appends the binding. -/
theorem insertA_append (l : List (Char × Nat)) (c : Char) (v : Nat)
    (h : lookupA l c = none) : insertA l c v = l ++ [(c, v)] := by
  induction l with
  | nil => rfl
  | cons p t ih =>
    obtain ⟨k, w⟩ := p
    by_cases hk : k = c
    · simp [lookupA, hk] at h
    · simp only [lookupA, hk, if_false] at h
      simp [insertA, hk, ih h]

/-- The decimal digit characters are digits with the expected codes. -/
theorem digitChar_spec {d : Nat} (hd : d < 10) :
    (digitChar d).isDigit = true ∧ (digitChar d).toNat = 48 + d ∧ digitChar d ≠ '+' := by
  interval_cases d <;> exact ⟨by decide, by decide, by decide⟩

/-- One digit appended to a digit string multiplies the value by ten. -/
theorem digitsVal_append (l : List Char) (c : Char) :
    digitsVal (l ++ [c]) = digitsVal l * 10 + (c.toNat - 48) := by
  unfold digitsVal
  rw [List.foldl_append]
  rfl

/-- `toDecimalAux` with enough fuel is nonempty, all digits, and evaluates
back to the number. -/
theorem toDecimalAux_spec : ∀ fuel n, n < fuel →
    toDecimalAux fuel n ≠ [] ∧ (∀ ch ∈ toDecimalAux fuel n, ch.isDigit = true) ∧
    digitsVal (toDecimalAux fuel n) = n := by
  intro fuel
  induction fuel with
  | zero => intro n h; omega
  | succ f ih =>
    intro n h
    by_cases h10 : n < 10
    · refine ⟨by simp [toDecimalAux, h10], ?_, ?_⟩
      · intro ch hch
        simp [toDecimalAux, h10] at hch
        subst hch
        exact (digitChar_spec h10).1
      · simp only [toDecimalAux, h10, if_true, if_pos]
        show digitsVal ([] ++ [digitChar n]) = n
        rw [digitsVal_append, (digitChar_spec h10).2.1]
        simp [digitsVal]
    · have hdiv : n / 10 < f := by
        have := Nat.div_lt_self (by omega : 0 < n) (by omega : 1 < 10)
        omega
      obtain ⟨hne, hdig, hval⟩ := ih (n / 10) hdiv
      have hmod : n % 10 < 10 := Nat.mod_lt n (by omega)
      refine ⟨?_, ?_, ?_⟩
      · simp [toDecimalAux, h10]
      · intro ch hch
        simp only [toDecimalAux, h10, if_false, List.mem_append, List.mem_singleton] at hch
        rcases hch with hch | hch
        · exact hdig ch hch
        · subst hch
          exact (digitChar_spec hmod).1
      · simp only [toDecimalAux, h10, if_false]
        rw [digitsVal_append, hval, (digitChar_spec hmod).2.1]
        omega

/-- `u16::to_string` parses back for `u16` values. -/
theorem parseU16_toDecimal {n : Nat} (hn : n ≤ 65535) : parseU16 (toDecimal n) = some n := by
  obtain ⟨hne, hdig, hval⟩ := toDecimalAux_spec (n + 1) n (by omega)
  unfold toDecimal at *
  rcases hl : toDecimalAux (n + 1) n with _ | ⟨c, r⟩
  · exact absurd hl hne
  · have hc : c.isDigit = true := hdig c (by rw [hl]; exact List.mem_cons_self _ _)
    have hcp : ¬ c = '+' := fun hh => by
      rw [hh] at hc
      cases hc
    rw [hl] at hval
    have hall : (c :: r).all Char.isDigit = true := by
      rw [List.all_eq_true]
      intro x hx
      exact hdig x (by rw [hl]; exact hx)
    simp [parseU16, hcp, hall, hval, hn]

/-- A character with an access value is one of the eight tags and none of
the special characters. -/
theorem access_char_facts {c : Char} {a : Nat} (h : access_from_char c = some a) :
    c ∈ ACCESS_C_FULL_LIST ∧ c ≠ ';' ∧ c ≠ ',' ∧ v2IsTag c = true ∧
    c ≠ M_IS_EXCLUSIVE ∧ c ≠ M_IGNORE_EXCLUSIVE ∧ tagBit c = a := by
  unfold access_from_char at h
  split at h <;> simp_all <;> subst_vars <;> decide

/-- A digit character is not a v2 tag and not a separator. -/
theorem digit_not_special {c : Char} (h : c.isDigit = true) :
    v2IsTag c = false ∧ c ≠ ';' ∧ c ≠ ',' := by
  have hne : ∀ x : Char, x.isDigit = false → c ≠ x := fun x hx hEq => by
    rw [hEq] at h
    rw [h] at hx
    cases hx
  refine ⟨?_, hne ';' (by decide), hne ',' (by decide)⟩
  have h1 := hne 'M' (by decide)
  have h2 := hne 'R' (by decide)
  have h3 := hne 'U' (by decide)
  have h4 := hne 'P' (by decide)
  have h5 := hne 'm' (by decide)
  have h6 := hne 'r' (by decide)
  have h7 := hne 'u' (by decide)
  have h8 := hne 'p' (by decide)
  have h9 := hne 'X' (by decide)
  have h10 := hne 'N' (by decide)
  simp [v2IsTag, M_IS_EXCLUSIVE, M_IGNORE_EXCLUSIVE, h1, h2, h3, h4, h5, h6, h7, h8, h9, h10]

/-- Decoding the single-record string `id ";" V ";"`: with no separators in
the id or the value, the record-set decoder drains exactly one record, keyed
by `id`, decoded from `V` by the version dispatch on its first character. -/
theorem decode_single (id : String) (v0 : Char) (Vt : List Char)
    (hid1 : ';' ∉ id.data) (hid2 : ',' ∉ id.data)
    (hv : ∀ ch ∈ v0 :: Vt, ch ≠ ';' ∧ ch ≠ ',') :
    decode_rec_to_rightset ((id.data ++ [';'] ++ (v0 :: Vt) ++ [';']).asString) [] =
      (true, none,
        [(id, if (access_from_char v0).isNone = true
              then decode_value_v1 (v0 :: Vt) (ACLRecord.new id) true
              else decode_value_v2 (v0 :: Vt) (ACLRecord.new id) true)]) := by
  have hdata : ((id.data ++ [';'] ++ (v0 :: Vt) ++ [';']).asString).data
      = id.data ++ [';'] ++ (v0 :: Vt) ++ [';'] := rfl
  have hnocomma : ',' ∉ id.data ++ [';'] ++ (v0 :: Vt) ++ [';'] := by
    intro hm
    rcases List.mem_append.mp hm with hm | hm
    · rcases List.mem_append.mp hm with hm | hm
      · rcases List.mem_append.mp hm with hm | hm
        · exact hid2 hm
        · simp at hm
      · exact (hv _ hm).2 rfl
    · simp at hm
  have hdate := extract_date_no_comma _ hnocomma
  have hsplit : splitSemi (id.data ++ [';'] ++ (v0 :: Vt) ++ [';'])
      = [id.data, v0 :: Vt, []] := by
    have h1 : id.data ++ [';'] ++ (v0 :: Vt) ++ [';']
        = id.data ++ ';' :: ((v0 :: Vt) ++ [';']) := by
      simp
    rw [h1, splitSemi_append _ _ hid1]
    have h2 : (v0 :: Vt) ++ [';'] = (v0 :: Vt) ++ ';' :: [] := rfl
    rw [h2, splitSemi_append _ _ (fun hm => (hv _ hm).1 rfl)]
    rfl
  have hne : id.data ++ [';'] ++ (v0 :: Vt) ++ [';'] ≠ [] := by
    simp
  unfold decode_rec_to_rightset decode_index_record
  rw [hdata, hdate]
  dsimp only
  rw [if_neg hne, hsplit]
  simp only [indexPairs, asString_data, List.append_nil]
  rfl

/-- The counters fold of `encode_value_v2` over valid positive entries emits
every group and accumulates every bit. -/
theorem encode_fold_groups (cs : List (Char × Nat)) :
    ∀ (s : Nat) (out : List Char),
    (∀ p ∈ cs, (access_from_char p.1).isSome = true ∧ 0 < p.2) →
    cs.foldl (fun (acc : Nat × List Char) tc =>
      match access_from_char tc.1 with
      | some c =>
        if tc.2 > 0 then
          (acc.1 ||| c, acc.2 ++ tc.1 :: (if tc.2 > 1 then toDecimal tc.2 else []))
        else acc
      | none => acc) (s, out)
      = (s ||| orBitsC cs, out ++ encGroups cs) := by
  induction cs with
  | nil =>
    intro s out _
    simp [orBitsC, encGroups]
  | cons tc rest ih =>
    intro s out h
    obtain ⟨hsome, hpos⟩ := h tc (List.mem_cons_self _ _)
    rcases ha : access_from_char tc.1 with _ | a
    · rw [ha] at hsome
      cases hsome
    · have htb : tagBit tc.1 = a := by simp [tagBit, ha]
      simp only [List.foldl_cons, ha, hpos, if_pos]
      rw [ih _ _ (fun p hp => h p (List.mem_cons_of_mem _ hp))]
      simp [orBitsC, encGroups, htb, Nat.lor_assoc]

/-- One step of the access-bit sweep of `encode_value_v2` emits nothing when
the counter bits already cover the whole access byte. -/
theorem encode_loop2_step (acc : Nat) (out : List Char) (x : Nat) :
    (if x &&& acc &&& acc = 0 then
      match access8_to_char (x &&& acc) with
      | some c => out ++ [c]
      | none => out
    else out) = out := by
  have hx : x &&& acc &&& acc = x &&& acc := by
    rw [Nat.land_assoc, Nat.and_self]
  rw [hx]
  by_cases h0 : x &&& acc = 0
  · rw [if_pos h0, h0]
    rfl
  · rw [if_neg h0]

/-- The access-bit sweep of `encode_value_v2` emits nothing when the counter
bits already cover the whole access byte. -/
theorem encode_second_loop_id (acc : Nat) (l : List Nat) :
    ∀ out : List Char,
    l.foldl (fun out a =>
      if a &&& acc &&& acc = 0 then
        match access8_to_char (a &&& acc) with
        | some c => out ++ [c]
        | none => out
      else out) out = out := by
  induction l with
  | nil => intro out; rfl
  | cons x rest ih =>
    intro out
    rw [List.foldl_cons, ih]
    exact encode_loop2_step acc out x

/-- `encode_value_v2` of a record whose counters exactly cover its access
byte: the tag/count groups followed by the marker. -/
theorem encode_value_v2_canonical (r : ACLRecord)
    (hval : ∀ p ∈ r.counters, (access_from_char p.1).isSome = true ∧ 0 < p.2)
    (hsa : orBitsC r.counters = r.access) :
    encode_value_v2 r = encGroups r.counters ++
      (if r.marker = M_IS_EXCLUSIVE ∨ r.marker = M_IGNORE_EXCLUSIVE
       then [r.marker] else []) := by
  unfold encode_value_v2
  rw [encode_fold_groups r.counters 0 [] hval]
  dsimp only
  rw [Nat.zero_or, hsa, encode_second_loop_id]
  split_ifs <;> simp

/-- `orBitsC` only depends on the keys. -/
theorem orBitsC_eq_orBitsK (cs : List (Char × Nat)) :
    orBitsC cs = orBitsK (cs.map Prod.fst) := by
  induction cs <;> simp [orBitsC, orBitsK, *]

/-- The or of the bits of the canonical tag list reassembles the byte. -/
theorem orBitsK_accessTags (a : Nat) (ha : a < 256) : orBitsK (accessTags a) = a := by
  interval_cases a <;> decide

/-- The keys of the pending entry. -/
theorem pendEntry_keys (tg : Option Char) (vl : List Char) :
    (pendEntry tg vl).map Prod.fst = pendKeys tg := by
  cases tg <;> rfl

/-- The v2 decode loop over the emitted groups: every group flushes to its
own counter entry, the bits accumulate, and the marker is untouched. -/
theorem v2_decode_groups (cs : List (Char × Nat)) :
    ∀ (acc : Nat) (mk : Char) (tg : Option Char) (vl : List Char)
      (ctrs : List (Char × Nat)),
    (∀ p ∈ cs, (access_from_char p.1).isSome = true ∧ 1 ≤ p.2 ∧ p.2 ≤ 65535) →
    (ctrs.map Prod.fst ++ (pendKeys tg ++ cs.map Prod.fst)).Nodup →
    v2Resolved (List.foldl (v2Step true) ⟨acc, mk, tg, vl, ctrs⟩ (encGroups cs)) =
      (acc ||| orBitsC cs, mk, ctrs ++ pendEntry tg vl ++ cs) := by
  induction cs with
  | nil =>
    intro acc mk tg vl ctrs _ hnd
    simp only [encGroups, List.foldl_nil, v2Resolved, orBitsC, Nat.or_zero, List.append_nil,
      Prod.mk.injEq]
    refine ⟨trivial, trivial, ?_⟩
    cases tg with
    | none => simp [v2FlushTag, pendEntry]
    | some t =>
      have ht : t ∉ ctrs.map Prod.fst := by
        simp only [pendKeys, List.nodup_append] at hnd
        intro hmem
        exact hnd.2.2 hmem (by simp)
      simp only [v2FlushTag, pendEntry, if_pos]
      rw [insertA_append _ _ _ (lookupA_eq_none _ _ ht)]
  | cons tc rest ih =>
    intro acc mk tg vl ctrs hval hnd
    obtain ⟨hsome, hge, hle⟩ := hval tc (List.mem_cons_self _ _)
    rcases ha : access_from_char tc.1 with _ | a
    · rw [ha] at hsome
      cases hsome
    · obtain ⟨_, _, _, htag, hx, hn, htb⟩ := access_char_facts ha
      have hdig : ∀ ch ∈ (if tc.2 > 1 then toDecimal tc.2 else []), ch.isDigit = true := by
        intro ch hch
        split at hch
        · exact (toDecimalAux_spec (tc.2 + 1) tc.2 (by omega)).2.1 ch hch
        · cases hch
      have hstep : v2Step true ⟨acc, mk, tg, vl, ctrs⟩ tc.1 =
          ⟨acc ||| a, mk, some tc.1, [], v2FlushTag true ⟨acc ||| a, mk, tg, vl, ctrs⟩⟩ := by
        simp [v2Step, htag, hx, hn, ha]
      have hflush : v2FlushTag true (⟨acc ||| a, mk, tg, vl, ctrs⟩ : V2State) =
          ctrs ++ pendEntry tg vl := by
        cases tg with
        | none => simp [v2FlushTag, pendEntry]
        | some t =>
          have ht : t ∉ ctrs.map Prod.fst := by
            simp only [pendKeys, List.nodup_append] at hnd
            intro hmem
            exact hnd.2.2 hmem (by simp)
          simp only [v2FlushTag, pendEntry, if_pos]
          rw [insertA_append _ _ _ (lookupA_eq_none _ _ ht)]
      have hgrp : encGroups (tc :: rest) =
          tc.1 :: ((if tc.2 > 1 then toDecimal tc.2 else []) ++ encGroups rest) := rfl
      rw [hgrp, List.foldl_cons, hstep, List.foldl_append]
      rw [v2_foldl_nontag true _ _
        (fun c hc => (digit_not_special (hdig c hc)).1)]
      dsimp only
      have hpend : pendEntry (some tc.1) ([] ++ (if tc.2 > 1 then toDecimal tc.2 else []))
          = [tc] := by
        by_cases h1 : tc.2 > 1
        · simp only [h1, if_pos, List.nil_append, pendEntry]
          rw [parseU16_toDecimal hle]
          simp
        · have h1' : tc.2 = 1 := by omega
          obtain ⟨t1, n1⟩ := tc
          simp only at h1'
          subst h1'
          simp [pendEntry, h1, parseU16]
      rw [hflush]
      have := ih (acc ||| a) mk (some tc.1) ([] ++ (if tc.2 > 1 then toDecimal tc.2 else []))
        (ctrs ++ pendEntry tg vl)
        (fun p hp => hval p (List.mem_cons_of_mem _ hp))
        (by
          simp only [List.map_append, pendEntry_keys, pendKeys]
          simpa [List.append_assoc, List.cons_append, List.map_cons] using hnd)
      rw [this, hpend]
      simp only [orBitsC, htb, Prod.mk.injEq]
      refine ⟨by rw [Nat.lor_assoc], trivial, by simp⟩

/-- A trailing marker character stores the marker and flushes the pending
counter token. -/
theorem v2_marker_step (S : V2State) (mkc : Char)
    (htagm : v2IsTag mkc = true)
    (hmk : mkc = M_IS_EXCLUSIVE ∨ mkc = M_IGNORE_EXCLUSIVE) :
    List.foldl (v2Step true) S [mkc] =
      ⟨S.access, mkc, some mkc, [], v2FlushTag true S⟩ := by
  simp only [List.foldl_cons, List.foldl_nil, v2Step, htagm, if_true, if_pos hmk]
  rfl

/-- Membership in the canonical tag list. -/
theorem mem_accessTags {c : Char} {a : Nat} (h : c ∈ accessTags a) :
    (access_from_char c).isSome = true := by
  unfold accessTags at h
  rw [List.mem_filter] at h
  obtain ⟨hc, _⟩ := h
  fin_cases hc <;> decide

/-- Decoding the emitted v2 groups from a fresh record: the counters decode
back exactly, the access byte is the or of the tag bits, and a trailing
marker is stored while additionally flushing as a counter of one. -/
theorem decode_value_v2_canonical (cs : List (Char × Nat)) (id : String)
    (hval : ∀ p ∈ cs, (access_from_char p.1).isSome = true ∧ 1 ≤ p.2 ∧ p.2 ≤ 65535)
    (hnd : (cs.map Prod.fst).Nodup) :
    decode_value_v2 (encGroups cs) (ACLRecord.new id) true =
      { id := id, access := orBitsC cs, marker := Char.ofNat 0, is_deleted := false,
        counters := cs } ∧
    (∀ mkc, mkc = M_IS_EXCLUSIVE ∨ mkc = M_IGNORE_EXCLUSIVE →
      decode_value_v2 (encGroups cs ++ [mkc]) (ACLRecord.new id) true =
        { id := id, access := orBitsC cs, marker := mkc, is_deleted := false,
          counters := cs ++ [(mkc, 1)] }) := by
  have hmain := v2_decode_groups cs 0 (Char.ofNat 0) none [] [] hval (by simpa using hnd)
  rw [v2Resolved] at hmain
  simp only [pendEntry, List.nil_append, Nat.zero_or, Prod.mk.injEq] at hmain
  obtain ⟨hacc, hmk0, hflush⟩ := hmain
  constructor
  · unfold decode_value_v2 ACLRecord.new
    dsimp only
    rw [hacc, hmk0, hflush]
  · intro mkc hmk
    have htagm : v2IsTag mkc = true := by
      rcases hmk with rfl | rfl <;> decide
    have hnotkey : mkc ∉ cs.map Prod.fst := by
      intro hm
      obtain ⟨p, hp, hpe⟩ := List.mem_map.mp hm
      obtain ⟨hsome, _, _⟩ := hval p hp
      rcases hps : access_from_char p.1 with _ | av
      · rw [hps] at hsome
        cases hsome
      · obtain ⟨_, _, _, _, hxm, hnm, _⟩ := access_char_facts hps
        rcases hmk with rfl | rfl
        · exact hxm hpe
        · exact hnm hpe
    unfold decode_value_v2 ACLRecord.new
    dsimp only
    rw [List.foldl_append, v2_marker_step _ _ htagm hmk]
    show _ = _
    have hfl : v2FlushTag true
        (⟨(List.foldl (v2Step true)
            ⟨0, Char.ofNat 0, none, [], []⟩ (encGroups cs)).access, mkc, some mkc, [],
          v2FlushTag true (List.foldl (v2Step true)
            ⟨0, Char.ofNat 0, none, [], []⟩ (encGroups cs))⟩ : V2State) =
        cs ++ [(mkc, 1)] := by
      rw [v2FlushTag]
      dsimp only
      rw [hflush]
      rw [show (parseU16 []).getD 1 = 1 from rfl]
      exact insertA_append _ _ _ (lookupA_eq_none _ _ hnotkey)
    rw [hfl]
    dsimp only
    rw [hacc]

/-- `encode_value_v1` of a small access byte is a single hex digit plus the
marker. -/
theorem encode_value_v1_small (r : ACLRecord) (ha : r.access < 16) :
    encode_value_v1 r = hexDigitChar r.access ::
      (if r.marker = M_IS_EXCLUSIVE ∨ r.marker = M_IGNORE_EXCLUSIVE
       then [r.marker] else []) := by
  unfold encode_value_v1 toHexUpper
  rw [show toHexUpperAux (r.access + 1) r.access
      = if r.access < 16 then [hexDigitChar r.access]
        else toHexUpperAux r.access (r.access / 16) ++ [hexDigitChar (r.access % 16)]
    from rfl]
  rw [if_pos ha]
  rfl

/-- Decoding the v1 value of a small nonzero access byte from a fresh
record: the access, the marker and the all-ones canonical counters come
back. -/
theorem decode_value_v1_small (a : Nat) (ha : a < 16) (id : String) :
    decode_value_v1 [hexDigitChar a] (ACLRecord.new id) true =
      { id := id, access := a, marker := Char.ofNat 0, is_deleted := false,
        counters := (accessTags a).map (fun c => (c, 1)) } ∧
    (∀ mkc, mkc = M_IS_EXCLUSIVE ∨ mkc = M_IGNORE_EXCLUSIVE →
      decode_value_v1 [hexDigitChar a, mkc] (ACLRecord.new id) true =
        { id := id, access := a, marker := mkc, is_deleted := false,
          counters := (accessTags a).map (fun c => (c, 1)) }) := by
  constructor
  · interval_cases a <;>
      (unfold decode_value_v1 ACLRecord.new; dsimp only; norm_num;
       all_goals (and_intros <;> rfl))
  · rintro mkc (rfl | rfl) <;> interval_cases a <;>
      (unfold decode_value_v1 ACLRecord.new; dsimp only; norm_num;
       all_goals (and_intros <;> rfl))

/-- A hex digit of a small access byte is not an access tag and not a
separator. -/
theorem hexDigitChar_facts (a : Nat) (ha : a < 16) :
    (access_from_char (hexDigitChar a)).isNone = true ∧
    hexDigitChar a ≠ ';' ∧ hexDigitChar a ≠ ',' := by
  interval_cases a <;> decide

/-- No character emitted for a valid counter list is a separator. -/
theorem encGroups_chars (cs : List (Char × Nat))
    (hval : ∀ p ∈ cs, (access_from_char p.1).isSome = true) :
    ∀ ch ∈ encGroups cs, ch ≠ ';' ∧ ch ≠ ',' := by
  induction cs with
  | nil =>
    intro ch hch
    cases hch
  | cons tc rest ih =>
    intro ch hch
    rw [show encGroups (tc :: rest)
        = tc.1 :: ((if tc.2 > 1 then toDecimal tc.2 else []) ++ encGroups rest)
      from rfl] at hch
    have hsome := hval tc (List.mem_cons_self _ _)
    rcases hps : access_from_char tc.1 with _ | av
    · rw [hps] at hsome
      cases hsome
    rcases List.mem_cons.mp hch with rfl | hch
    · obtain ⟨_, h1, h2, _⟩ := access_char_facts hps
      exact ⟨h1, h2⟩
    rcases List.mem_append.mp hch with hch | hch
    · have hdig : ch.isDigit = true := by
        by_cases h1 : tc.2 > 1
        · rw [if_pos h1] at hch
          rw [show toDecimal tc.2 = toDecimalAux (tc.2 + 1) tc.2 from rfl] at hch
          exact (toDecimalAux_spec _ _ (Nat.lt_succ_self _)).2.1 ch hch
        · rw [if_neg h1] at hch
          cases hch
      exact (digit_not_special hdig).2
    · exact ih (fun p hp => hval p (List.mem_cons_of_mem _ hp)) ch hch

/-- A counter list whose counts are all one is the all-ones list over its
keys. -/
theorem counters_all_one (cs : List (Char × Nat)) (ks : List Char)
    (hk : cs.map Prod.fst = ks) (h1 : ∀ p ∈ cs, p.2 = 1) :
    cs = ks.map (fun c => (c, 1)) := by
  induction cs generalizing ks with
  | nil =>
    subst hk
    rfl
  | cons tc rest ih =>
    subst hk
    simp only [List.map_cons]
    rw [← ih (rest.map Prod.fst) rfl (fun p hp => h1 p (List.mem_cons_of_mem _ hp))]
    have hone := h1 tc (List.mem_cons_self _ _)
    cases tc with
    | mk c n =>
      have hn : n = 1 := hone
      subst hn
      rfl

/-- `encode_record` of a singleton live record set, no date: the id, the
versioned value and the separators. -/
theorem encode_record_single (r : ACLRecord) (v : Nat) (hdel : r.is_deleted = false) :
    encode_record none [(r.id, r)] v =
      (r.id.data ++ [';'] ++
        (if v = 1 then encode_value_v1 r else encode_value_v2 r) ++ [';']).asString := by
  unfold encode_record
  simp only [List.foldl_cons, List.foldl_nil, hdel, Bool.not_false, if_true]
  norm_num

/-- C1 counterexample: the version-1 round trip fails for an access byte with
more than one hex digit — the record with access 18 (`0x12`) and canonical
counters encodes to `"a;12;"`, but `decode_value_v1` reads the digits
least-significant first and returns access 33 (`0x21`) with the counters of
the wrong byte. -/
theorem codec_round_trip_counterexample :
    encode_record none
        [("a", ⟨"a", 18, Char.ofNat 0, false, [('R', 1), ('m', 1)]⟩)] 1 = "a;12;" ∧
    [('R', 1), ('m', 1)].map Prod.fst = accessTags 18 ∧
    decode_rec_to_rightset "a;12;" [] =
      (true, none, [("a", ⟨"a", 33, Char.ofNat 0, false, [('M', 1), ('r', 1)]⟩)]) ∧
    (33 : Nat) ≠ 18 := by
  refine ⟨rfl, by decide, rfl, by decide⟩

/-- C1 (corrected): for a live record with no separators in its id, counters
keyed exactly by the tags of its (nonzero, byte-sized) access bits with `u16`
counts, and a valid or absent marker, the version-2 encode/decode round trip
through `decode_rec_to_rightset` returns the record up to `v2RoundTrip` — a
present marker is additionally flushed as a counter of one by the value
parser; the version-1 round trip is exact when the access byte fits in one
hex digit and every count is one. -/
theorem codec_round_trip (r : ACLRecord)
    (hdel : r.is_deleted = false)
    (hid1 : ';' ∉ r.id.data) (hid2 : ',' ∉ r.id.data)
    (hacc : r.access < 256) (hacc0 : r.access ≠ 0)
    (hkeys : r.counters.map Prod.fst = accessTags r.access)
    (hvals : ∀ p ∈ r.counters, 1 ≤ p.2 ∧ p.2 ≤ 65535)
    (hmk : r.marker = Char.ofNat 0 ∨ r.marker = M_IS_EXCLUSIVE ∨
           r.marker = M_IGNORE_EXCLUSIVE) :
    decode_rec_to_rightset (encode_record none [(r.id, r)] 2) [] =
      (true, none, [(r.id, v2RoundTrip r)]) ∧
    (r.access < 16 → (∀ p ∈ r.counters, p.2 = 1) →
      decode_rec_to_rightset (encode_record none [(r.id, r)] 1) [] =
        (true, none, [(r.id, r)])) := by
  obtain ⟨rid, racc, rmk, rdel, rcnt⟩ := r
  dsimp only at hdel hid1 hid2 hacc hacc0 hkeys hvals hmk
  subst hdel
  have hval2 : ∀ p ∈ rcnt, (access_from_char p.1).isSome = true ∧
      1 ≤ p.2 ∧ p.2 ≤ 65535 := by
    intro p hp
    refine ⟨?_, hvals p hp⟩
    have hm : p.1 ∈ rcnt.map Prod.fst := List.mem_map_of_mem _ hp
    rw [hkeys] at hm
    exact mem_accessTags hm
  have hval1 : ∀ p ∈ rcnt, (access_from_char p.1).isSome = true ∧ 0 < p.2 :=
    fun p hp => ⟨(hval2 p hp).1, (hval2 p hp).2.1⟩
  have hsa : orBitsC rcnt = racc := by
    rw [orBitsC_eq_orBitsK, hkeys, orBitsK_accessTags _ hacc]
  have hnd : (rcnt.map Prod.fst).Nodup := by
    rw [hkeys]
    unfold accessTags
    exact List.Nodup.filter _ (by decide)
  have hvchars := encGroups_chars rcnt (fun p hp => (hval2 p hp).1)
  have hdvc := decode_value_v2_canonical rcnt rid hval2 hnd
  constructor
  · have hcsne : rcnt ≠ [] := by
      intro h0
      apply hacc0
      rw [← hsa, h0]
      rfl
    obtain ⟨tc, rest, hcs⟩ := List.exists_cons_of_ne_nil hcsne
    rw [encode_record_single _ 2 rfl]
    dsimp only
    rw [show (if (2 : Nat) = 1 then encode_value_v1 ⟨rid, racc, rmk, false, rcnt⟩
           else encode_value_v2 ⟨rid, racc, rmk, false, rcnt⟩)
         = encode_value_v2 ⟨rid, racc, rmk, false, rcnt⟩ from rfl]
    rw [encode_value_v2_canonical _ hval1 hsa]
    dsimp only
    have hsome : (access_from_char tc.1).isSome = true :=
      (hval2 tc (by rw [hcs]; exact List.mem_cons_self _ _)).1
    have hnone : (access_from_char tc.1).isNone = false := by
      rcases hq : access_from_char tc.1 with _ | av
      · rw [hq] at hsome
        cases hsome
      · rfl
    rcases hmk with hm0 | hmm
    · subst hm0
      rw [if_neg (by decide :
        ¬(Char.ofNat 0 = M_IS_EXCLUSIVE ∨ Char.ofNat 0 = M_IGNORE_EXCLUSIVE))]
      rw [List.append_nil]
      subst hcs
      rw [show encGroups (tc :: rest)
          = tc.1 :: ((if tc.2 > 1 then toDecimal tc.2 else []) ++ encGroups rest)
        from rfl]
      rw [decode_single rid tc.1
        ((if tc.2 > 1 then toDecimal tc.2 else []) ++ encGroups rest)
        hid1 hid2 (fun ch hch => hvchars ch hch)]
      simp only [hnone, Bool.false_eq_true, if_false]
      rw [show decode_value_v2
            (tc.1 :: ((if tc.2 > 1 then toDecimal tc.2 else []) ++ encGroups rest))
            (ACLRecord.new rid) true
          = decode_value_v2 (encGroups (tc :: rest)) (ACLRecord.new rid) true
        from rfl]
      rw [hdvc.1, hsa]
      unfold v2RoundTrip
      dsimp only
      rw [if_neg (by decide :
        ¬(Char.ofNat 0 = M_IS_EXCLUSIVE ∨ Char.ofNat 0 = M_IGNORE_EXCLUSIVE))]
      rw [List.append_nil]
    · rw [if_pos hmm]
      subst hcs
      rw [show encGroups (tc :: rest) ++ [rmk]
          = tc.1 :: (((if tc.2 > 1 then toDecimal tc.2 else []) ++ encGroups rest)
              ++ [rmk]) from rfl]
      have hvm : ∀ ch ∈ tc.1 :: (((if tc.2 > 1 then toDecimal tc.2 else [])
          ++ encGroups rest) ++ [rmk]), ch ≠ ';' ∧ ch ≠ ',' := by
        intro ch hch
        rcases List.mem_cons.mp hch with rfl | hch
        · exact hvchars _ (List.mem_cons_self _ _)
        rcases List.mem_append.mp hch with hch | hch
        · exact hvchars ch (List.mem_cons_of_mem _ hch)
        · have hceq : ch = rmk := by
            cases hch with
            | head => rfl
            | tail _ h => cases h
          subst hceq
          rcases hmm with rfl | rfl
          · exact ⟨by decide, by decide⟩
          · exact ⟨by decide, by decide⟩
      rw [decode_single rid tc.1
        (((if tc.2 > 1 then toDecimal tc.2 else []) ++ encGroups rest) ++ [rmk])
        hid1 hid2 hvm]
      simp only [hnone, Bool.false_eq_true, if_false]
      rw [show decode_value_v2
            (tc.1 :: (((if tc.2 > 1 then toDecimal tc.2 else []) ++ encGroups rest)
              ++ [rmk])) (ACLRecord.new rid) true
          = decode_value_v2 (encGroups (tc :: rest) ++ [rmk]) (ACLRecord.new rid) true
        from rfl]
      rw [hdvc.2 rmk hmm, hsa]
      unfold v2RoundTrip
      dsimp only
      rw [if_pos hmm]
  · intro h16 hones
    have hcnt1 : rcnt = (accessTags racc).map (fun c => (c, 1)) :=
      counters_all_one rcnt _ hkeys hones
    obtain ⟨hhx, hhx1, hhx2⟩ := hexDigitChar_facts racc h16
    rw [encode_record_single _ 1 rfl]
    dsimp only
    rw [show (if (1 : Nat) = 1 then encode_value_v1 ⟨rid, racc, rmk, false, rcnt⟩
           else encode_value_v2 ⟨rid, racc, rmk, false, rcnt⟩)
         = encode_value_v1 ⟨rid, racc, rmk, false, rcnt⟩ from rfl]
    rw [encode_value_v1_small _ h16]
    dsimp only
    rcases hmk with hm0 | hmm
    · subst hm0
      rw [if_neg (by decide :
        ¬(Char.ofNat 0 = M_IS_EXCLUSIVE ∨ Char.ofNat 0 = M_IGNORE_EXCLUSIVE))]
      rw [decode_single rid (hexDigitChar racc) [] hid1 hid2 (by
        intro ch hch
        have hceq : ch = hexDigitChar racc := by
          cases hch with
          | head => rfl
          | tail _ h => cases h
        subst hceq
        exact ⟨hhx1, hhx2⟩)]
      rw [if_pos hhx]
      rw [(decode_value_v1_small racc h16 rid).1, hcnt1]
    · rw [if_pos hmm]
      rw [decode_single rid (hexDigitChar racc) [rmk] hid1 hid2 (by
        intro ch hch
        rcases List.mem_cons.mp hch with rfl | hch
        · exact ⟨hhx1, hhx2⟩
        · have hceq : ch = rmk := by
            cases hch with
            | head => rfl
            | tail _ h => cases h
          subst hceq
          rcases hmm with rfl | rfl
          · exact ⟨by decide, by decide⟩
          · exact ⟨by decide, by decide⟩)]
      rw [if_pos hhx]
      rw [(decode_value_v1_small racc h16 rid).2 rmk hmm, hcnt1]

/-- Concrete run of the corrected round-trip law: the record
`⟨"a", 5, 'X', false, [('M',1),('U',1)]⟩` survives the version-2 round trip
with the marker flushed as one more counter, and the version-1 round trip
exactly. -/
theorem codec_round_trip_witness :
    decode_rec_to_rightset (encode_record none
        [("a", ⟨"a", 5, 'X', false, [('M', 1), ('U', 1)]⟩)] 2) [] =
      (true, none, [("a", v2RoundTrip ⟨"a", 5, 'X', false, [('M', 1), ('U', 1)]⟩)]) ∧
    decode_rec_to_rightset (encode_record none
        [("a", ⟨"a", 5, 'X', false, [('M', 1), ('U', 1)]⟩)] 1) [] =
      (true, none, [("a", ⟨"a", 5, 'X', false, [('M', 1), ('U', 1)]⟩)]) := by
  have h := codec_round_trip ⟨"a", 5, 'X', false, [('M', 1), ('U', 1)]⟩
    rfl (by decide) (by decide) (by decide) (by decide) (by decide)
    (by decide) (by decide)
  exact ⟨h.1, h.2 (by decide) (by decide)⟩

end VCommon
